import Mathlib

/-!
# Canonical request signing and token consumption (`lib/security/security.js`)

A shallow embedding of `security.js` and of the parts of the JavaScript platform it
relies on (own-property order of ordinary objects, `Array.prototype.sort` on strings,
`_.merge` on flat objects, `querystring.stringify` and `querystring.unescape`), followed
by theorems about the signature base string, the authorization header, and the error
behaviour of `verifyJWS` and `decryptJWE`.

Conventions of the embedding:

* a string is a sequence of Unicode scalar values, that is, a well-formed JavaScript
  string (no lone surrogates);
* the parameter mapping of a request has string keys and string values;
* the clock, the nonce generator, the file system and the cryptographic libraries are
  collaborators: what a call observes of them is a field of an environment record;
* a thrown exception is the `error` case of `Except`.
-/

namespace Security

/-! ## Strings -/

/-- A JavaScript string without lone surrogates: its sequence of code points. -/
abbrev JSString := List Char

/-- UTF-16 code units of one code point. -/
def utf16Char (c : Char) : List Nat :=
  if c.toNat < 0x10000 then [c.toNat]
  else [0xD800 + (c.toNat - 0x10000) / 0x400, 0xDC00 + (c.toNat - 0x10000) % 0x400]

/-- UTF-16 code units of a string, the representation JavaScript compares. -/
def utf16 : JSString → List Nat
  | [] => []
  | c :: cs => utf16Char c ++ utf16 cs

/-- Lexicographic order on code-unit sequences (a proper initial segment is smaller). -/
def cuLe : List Nat → List Nat → Bool
  | [], _ => true
  | _ :: _, [] => false
  | a :: as, b :: bs => if a < b then true else if b < a then false else cuLe as bs

/-- String comparison `a <= b` of JavaScript: lexicographic on UTF-16 code units, case
sensitive. -/
def strLe (a b : JSString) : Prop := cuLe (utf16 a) (utf16 b) = true

instance : DecidableRel strLe := fun a b => by unfold strLe; exact inferInstance

/-- The method `Array.prototype.sort()` without comparator on an array of strings. The
order is total and antisymmetric on strings, so every sorting algorithm returns this
list. -/
def jsSort (ks : List JSString) : List JSString := ks.insertionSort strLe

/-- Digits of `Number::toString` for a non-negative integer below `10^21` (decimal, no
exponent): timestamps and nonces are such numbers. -/
def numberToString (n : Nat) : JSString := Nat.toDigits 10 n

/-! ## Values and ordinary objects -/

/-- The primitive values stored in the objects of the signer. -/
inductive JSVal where
  | str (s : JSString)
  | num (n : Nat)
  | undefined
  deriving DecidableEq, Repr, Inhabited

/-- An ordinary object with string-keyed enumerable data properties, listed in the
order in which the properties were created. -/
abbrev JSObject := List (JSString × JSVal)

/-- The parameter mapping of a request: string keys with string values, in insertion
order. -/
abbrev Params := List (JSString × JSString)

/-- The parameter mapping as an object. -/
def paramsObject (params : Params) : JSObject := params.map fun e => (e.1, JSVal.str e.2)

/-- Value of a decimal digit string. -/
def digitsVal (k : JSString) : Nat := k.foldl (fun n c => 10 * n + (c.toNat - 48)) 0

/-- Array index of a property key: the key is the canonical decimal numeral of an
integer in `0 .. 2^32 - 2`. -/
def arrayIndex? (k : JSString) : Option Nat :=
  if k ≠ [] ∧ k.all Char.isDigit ∧ (k.head? ≠ some '0' ∨ k.length = 1)
      ∧ digitsVal k < 4294967295 then
    some (digitsVal k)
  else none

/-- Order of two array-index keys by numeric value. -/
def indexLe (a b : JSString) : Prop := (arrayIndex? a).getD 0 ≤ (arrayIndex? b).getD 0

instance : DecidableRel indexLe := fun a b => by unfold indexLe; exact inferInstance

/-- Keys in creation order. -/
def keysOf (o : JSObject) : List JSString := o.map Prod.fst

/-- The order of `OrdinaryOwnPropertyKeys`, which `Object.keys`, `for-in` and
`querystring.stringify` follow: array-index keys in ascending numeric order, then the
other keys in creation order. -/
def ownKeys (o : JSObject) : List JSString :=
  ((keysOf o).filter (fun k => (arrayIndex? k).isSome)).insertionSort indexLe
    ++ (keysOf o).filter (fun k => !(arrayIndex? k).isSome)

/-- Property read `o[k]` for an own key (`undefined` when absent). -/
def getV (o : JSObject) (k : JSString) : JSVal := (o.lookup k).getD JSVal.undefined

/-- Write of an own data property: an existing key keeps its position, a new key is
appended. -/
def put : JSObject → JSString → JSVal → JSObject
  | [], k, v => [(k, v)]
  | (k', v') :: o, k, v => if k' = k then (k', v) :: o else (k', v') :: put o k v

/-- The key `__proto__`, for which `Object.prototype` has an accessor. -/
def protoKey : JSString := "__proto__".toList

/-- Assignment `o[k] = v` of a primitive value on an object that inherits from
`Object.prototype`: for the key `__proto__` that is not an own property the inherited
setter runs and ignores a primitive, so the object is unchanged. -/
def assign (o : JSObject) (k : JSString) (v : JSVal) : JSObject :=
  if k = protoKey ∧ o.lookup k = none then o else put o k v

/-- The call `_.merge(object, source)` of lodash for a source whose values are strings:
each key of `source`, in `for-in` order, is written to `object` (`assignMergeValue`
skips only an equal value, and defines `__proto__` as an own property), and `object` is
returned. -/
def merge (object : JSObject) (source : Params) : JSObject :=
  (ownKeys (paramsObject source)).foldl
    (fun acc k => put acc k (getV (paramsObject source) k)) object

/-- Source lines 16-30: the keys are sorted and copied, in sorted order, into a fresh
object. -/
def sortJSON (json : JSObject) : JSObject :=
  (jsSort (ownKeys json)).foldl (fun newJSON k => assign newJSON k (getV json k)) []

/-! ## The `querystring` module -/

/-- The characters `querystring.escape` leaves alone: ASCII letters and digits and
`- _ . ! ~ * ' ( )`. -/
def noEscape (c : Char) : Bool :=
  c.isAlphanum || c = '-' || c = '_' || c = '.' || c = '!' || c = '~' || c = '*'
    || c = Char.ofNat 39 || c = '(' || c = ')'

/-- Upper-case hexadecimal digit of a number below 16. -/
def hexDigit (n : Nat) : Char :=
  if n < 10 then Char.ofNat (48 + n) else Char.ofNat (55 + n)

/-- Entry of the `hexTable` of `querystring`: `%XX` for a byte. -/
def hexTable (b : Nat) : JSString := ['%', hexDigit (b / 16), hexDigit (b % 16)]

/-- UTF-8 bytes of a code point. -/
def utf8 (c : Char) : List Nat :=
  let v := c.toNat
  if v < 0x80 then [v]
  else if v < 0x800 then [0xC0 + v / 0x40, 0x80 + v % 0x40]
  else if v < 0x10000 then [0xE0 + v / 0x1000, 0x80 + v / 0x40 % 0x40, 0x80 + v % 0x40]
  else [0xF0 + v / 0x40000, 0x80 + v / 0x1000 % 0x40, 0x80 + v / 0x40 % 0x40, 0x80 + v % 0x40]

/-- Percent-encoding of one code point by `querystring.escape`. -/
def escapeChar (c : Char) : JSString :=
  if noEscape c then [c] else (utf8 c).flatMap hexTable

/-- The function `querystring.escape(str)` on a well-formed string. -/
def qsEscape (s : JSString) : JSString := s.flatMap escapeChar

/-- The helper `stringifyPrimitive` of `querystring`: a string is itself, a finite
number its decimal numeral, anything else the empty string. -/
def stringifyPrimitive : JSVal → JSString
  | .str s => s
  | .num n => numberToString n
  | .undefined => []

/-- The function `querystring.stringify(obj)` for an object of primitive values: the own
keys in enumeration order, each as `escape(key)=escape(value)`, joined by `&`. -/
def qsStringify (obj : JSObject) : JSString :=
  List.intercalate ['&']
    ((ownKeys obj).map fun k => qsEscape k ++ '=' :: qsEscape (stringifyPrimitive (getV obj k)))

/-- Value of a hexadecimal digit, either case. -/
def hexVal (c : Char) : Option Nat :=
  if '0' ≤ c ∧ c ≤ '9' then some (c.toNat - 48)
  else if 'A' ≤ c ∧ c ≤ 'F' then some (c.toNat - 55)
  else if 'a' ≤ c ∧ c ≤ 'f' then some (c.toNat - 87)
  else none

/-- What `decodeURIComponent` reads: a literal character or the byte of a `%XX`. -/
inductive Tok where
  | raw (c : Char)
  | byte (b : Nat)
  deriving DecidableEq, Repr, Inhabited

/-- First pass of `decodeURIComponent`: every `%` must be followed by two hexadecimal
digits (otherwise `URIError`, here `none`). -/
def pctDecode : JSString → Option (List Tok)
  | [] => some []
  | c :: rest =>
    if c = '%' then
      match rest with
      | a :: b :: rest' =>
        match hexVal a, hexVal b with
        | some x, some y => (pctDecode rest').map (Tok.byte (16 * x + y) :: ·)
        | _, _ => none
      | _ => none
    else (pctDecode rest).map (Tok.raw c :: ·)

/-- Continuation byte `10xxxxxx`. -/
def isCont (b : Nat) : Bool := 0x80 ≤ b && b < 0xC0

/-- Progress of `decodeURIComponent` through a UTF-8 sequence: outside of one, or
inside with `need` continuation bytes still to come, the bits `acc` read so far, and the
least code point `lo` that needs a sequence of this length. -/
inductive Utf8State where
  | start
  | inside (need acc lo : Nat)
  deriving DecidableEq, Repr

/-- Second pass of `decodeURIComponent`: a byte with the high bit set starts a UTF-8
sequence of 2 to 4 bytes, all of which must come from `%XX` escapes and form the
shortest encoding of a Unicode scalar value (otherwise `URIError`, here `none`). -/
def utf8Go : Utf8State → List Tok → Option JSString
  | .start, [] => some []
  | .inside _ _ _, [] => none
  | .start, Tok.raw c :: rest => (utf8Go .start rest).map (c :: ·)
  | .inside _ _ _, Tok.raw _ :: _ => none
  | .start, Tok.byte b :: rest =>
    if b < 0x80 then (utf8Go .start rest).map (Char.ofNat b :: ·)
    else if b < 0xC0 then none
    else if b < 0xE0 then utf8Go (.inside 1 (b - 0xC0) 0x80) rest
    else if b < 0xF0 then utf8Go (.inside 2 (b - 0xE0) 0x800) rest
    else if b < 0xF8 then utf8Go (.inside 3 (b - 0xF0) 0x10000) rest
    else none
  | .inside need acc lo, Tok.byte b :: rest =>
    if isCont b then
      if need = 1 then
        if lo ≤ acc * 0x40 + (b - 0x80) ∧ (acc * 0x40 + (b - 0x80)).isValidChar then
          (utf8Go .start rest).map (Char.ofNat (acc * 0x40 + (b - 0x80)) :: ·)
        else none
      else utf8Go (.inside (need - 1) (acc * 0x40 + (b - 0x80)) lo) rest
    else none

/-- UTF-8 decoding of a whole token sequence. -/
def utf8Decode (ts : List Tok) : Option JSString := utf8Go .start ts

/-- The function `decodeURIComponent(s)`; `none` stands for the `URIError` it throws. -/
def decodeURIComponent (s : JSString) : Option JSString := (pctDecode s).bind utf8Decode

/-! ## Collaborators of the signer -/

/-- A thrown value: an `Error` object raised by the platform or a library (identified
by its message), or a thrown string primitive. -/
inductive Thrown where
  | error (message : String)
  | text (s : String)
  deriving DecidableEq, Repr, Inhabited

/-- The object `signWith` handed to the `sign` call of `crypto`: the key text and, when
set, the passphrase. -/
structure SignWith where
  key : JSString
  passphrase : Option JSString
  deriving DecidableEq, Repr

/-- What one call of the signer observes of the outside world. -/
structure Env where
  /-- Value returned by `nonce()`. -/
  nonce : Nat
  /-- Value of `(new Date).getTime()`. -/
  getTime : Nat
  /-- The call `fs.readFileSync(path, 'utf8')`. -/
  readFileSync : JSString → Except Thrown JSString
  /-- The call `crypto.createSign('RSA-SHA256').update(baseString).sign(signWith, 'base64')`. -/
  rsaSha256Sign : JSString → SignWith → Except Thrown JSString
  /-- The method `String.prototype.toUpperCase` on strings that are not pure ASCII. -/
  toUpperCaseNonAscii : JSString → JSString
  /-- Fallback of `querystring.unescape` when `decodeURIComponent` throws:
  `unescapeBuffer(s).toString()`. -/
  unescapeBuffer : JSString → JSString

/-- The method `String.prototype.toUpperCase`: on an ASCII string the letters `a`-`z`
become `A`-`Z`; other strings are left to the platform. -/
def toUpperCase (env : Env) (s : JSString) : JSString :=
  if s.all (fun c => c.toNat < 128) then s.map Char.toUpper else env.toUpperCaseNonAscii s

/-- The function `querystring.unescape(s)`: `decodeURIComponent(s)`, or the buffer
fallback when that throws. -/
def qsUnescape (env : Env) (s : JSString) : JSString :=
  match decodeURIComponent s with
  | some r => r
  | none => env.unescapeBuffer s

/-! ## The signer: `generateSHA256withRSAHeader` and `generateAuthorizationHeader` -/

/-- Source lines 47-52. -/
def defaultApexHeaders (env : Env) (appId : JSString) : JSObject :=
  [("app_id".toList, JSVal.str appId),
   ("nonce".toList, JSVal.num env.nonce),
   ("signature_method".toList, JSVal.str "RS256".toList),
   ("timestamp".toList, JSVal.num env.getTime)]

/-- Source lines 54-57: the parameters that take part in signing. -/
def effectiveParams (params : Params) (method strContentType : JSString) : Params :=
  if method = "POST".toList ∧ strContentType ≠ "application/x-www-form-urlencoded".toList then []
  else params

/-- Source line 62. -/
def baseParams (env : Env) (params : Params) (method strContentType appId : JSString) :
    JSObject :=
  sortJSON (merge (defaultApexHeaders env appId) (effectiveParams params method strContentType))

/-- Source lines 64-65. -/
def baseParamsStr (env : Env) (params : Params) (method strContentType appId : JSString) :
    JSString :=
  qsUnescape env (qsStringify (baseParams env params method strContentType appId))

/-- Source line 70: the signature base string. -/
def baseString (env : Env) (url : JSString) (params : Params)
    (method strContentType appId : JSString) : JSString :=
  toUpperCase env method ++ "&".toList ++ url ++ "&".toList
    ++ baseParamsStr env params method strContentType appId

/-- Source lines 77-81: the passphrase is set when it is defined and not empty. -/
def signWith (key : JSString) (keyCertPassphrase : Option JSString) : SignWith :=
  match keyCertPassphrase with
  | some p => if p ≠ [] then ⟨key, some p⟩ else ⟨key, none⟩
  | none => ⟨key, none⟩

/-- Source lines 94-99. -/
def strApexHeader (env : Env) (appId signature : JSString) : JSString :=
  "PKI_SIGN timestamp=\"".toList ++ numberToString env.getTime
    ++ "\",nonce=\"".toList ++ numberToString env.nonce
    ++ "\",app_id=\"".toList ++ appId
    ++ "\",signature_method=\"RS256\"".toList
    ++ ",signature=\"".toList ++ signature
    ++ "\"".toList

/-- Source lines 42-102. The base string is built first, then the key file is read,
then the primitive signs; an exception of either ends the call. -/
def generateSHA256withRSAHeader (env : Env) (url : JSString) (params : Params)
    (method strContentType appId keyCertContent : JSString)
    (keyCertPassphrase : Option JSString) : Except Thrown JSString :=
  match env.readFileSync keyCertContent with
  | .error e => .error e
  | .ok key =>
    match env.rsaSha256Sign (baseString env url params method strContentType appId)
        (signWith key keyCertPassphrase) with
    | .error e => .error e
    | .ok signature => .ok (strApexHeader env appId signature)

/-- Source lines 112-121. -/
def generateAuthorizationHeader (env : Env) (url : JSString) (params : Params)
    (method strContentType authType appId keyCertContent : JSString)
    (passphrase : Option JSString) : Except Thrown JSString :=
  if authType = "L2".toList then
    generateSHA256withRSAHeader env url params method strContentType appId keyCertContent
      passphrase
  else .ok []

/-! ## The verifier: `verifyJWS` -/

/-- The options object passed to `jwt.verify`. -/
structure VerifyOptions where
  algorithms : List String
  ignoreNotBefore : Bool
  deriving DecidableEq, Repr

/-- Collaborators of `verifyJWS`; `Claims` is the type of a decoded token. -/
structure VerifyEnv (Claims : Type) where
  /-- The call `fs.readFileSync(path, 'utf8')`. -/
  readFileSync : JSString → Except Thrown JSString
  /-- The synchronous call `jwt.verify(jws, key, options)`. -/
  jwtVerify : JSString → JSString → VerifyOptions → Except Thrown Claims

/-- Source lines 124-137: whatever is thrown inside `try` is logged and replaced by a
thrown string. -/
def verifyJWS {Claims : Type} (env : VerifyEnv Claims) (jws publicCert : JSString) :
    Except Thrown Claims :=
  match env.readFileSync publicCert with
  | .error _ => .error (Thrown.text "Error with verifying and decoding JWS")
  | .ok pem =>
    match env.jwtVerify jws pem ⟨["RS256"], true⟩ with
    | .error _ => .error (Thrown.text "Error with verifying and decoding JWS")
    | .ok decoded => .ok decoded

/-! ## The decryptor: `decryptJWE` -/

/-- Outcome of calling a function that returns a promise: it throws before returning,
or the promise it returns is rejected, or fulfilled. -/
inductive Async (α : Type) where
  | throws (e : Thrown)
  | rejects (e : Thrown)
  | fulfils (a : α)

/-- Final state of a promise as the caller sees it. -/
inductive Promise (α : Type) where
  | resolved (a : α)
  | rejected (e : Thrown)
  | pending
  deriving DecidableEq

/-- The record `data` of source lines 149-157. -/
structure CompactRecord (Json : Type) where
  type : JSString
  ciphertext : JSString
  protected_ : JSString
  encrypted_key : JSString
  tag : JSString
  iv : JSString
  header : Json

/-- Collaborators of `decryptJWE`; `Json` is the type of parsed JSON values, `Key` of
loaded keys. -/
structure DecryptEnv (Json Key : Type) where
  /-- The expression `JSON.parse(jose.util.base64url.decode(header).toString())`. -/
  parseHeader : JSString → Except Thrown Json
  /-- The call `fs.readFileSync(path, 'utf8')`. -/
  readFileSync : JSString → Except Thrown JSString
  /-- The call `keystore.add(pem, "pem")`. -/
  keystoreAdd : JSString → Async Key
  /-- The call `jose.JWE.createDecrypt(jweKey).decrypt(data)`, giving
  `result.payload.toString()`. -/
  decrypt : Key → CompactRecord Json → Async JSString
  /-- The call `JSON.parse(text)` on the plaintext. -/
  jsonParse : JSString → Except Thrown Json

/-- Source lines 143-171, the promise built by `new Promise(...)`. An exception inside
the executor rejects it. A rejection of `keystore.add` has no handler on its chain, and
neither has an exception thrown by the first `then` callback, so `resolve` and `reject`
are never called in those cases. The inner `catch` handles both a rejected `decrypt`
and an exception of the `JSON.parse` in the inner `then` callback. -/
def decryptJWE.executor {Json Key : Type} (env : DecryptEnv Json Key)
    (header encryptedKey iv cipherText tag privateKey : JSString) : Promise Json :=
  match env.parseHeader header with
  | .error e => .rejected e
  | .ok parsed =>
    let data : CompactRecord Json :=
      ⟨"compact".toList, cipherText, header, encryptedKey, tag, iv, parsed⟩
    match env.readFileSync privateKey with
    | .error e => .rejected e
    | .ok pem =>
      match env.keystoreAdd pem with
      | .throws e => .rejected e
      | .rejects _ => .pending
      | .fulfils jweKey =>
        match env.decrypt jweKey data with
        | .throws _ => .pending
        | .rejects e => .rejected e
        | .fulfils text =>
          match env.jsonParse text with
          | .error e => .rejected e
          | .ok payload => .resolved payload

/-- Source lines 140-176: the promise of the executor followed by the outer `catch`,
which logs the error and throws a string in its place. -/
def decryptJWE {Json Key : Type} (env : DecryptEnv Json Key)
    (header encryptedKey iv cipherText tag privateKey : JSString) : Promise Json :=
  match decryptJWE.executor env header encryptedKey iv cipherText tag privateKey with
  | .rejected _ => .rejected (Thrown.text "Error with decrypting JWE")
  | .resolved payload => .resolved payload
  | .pending => .pending

/-! ## Notions used in the statements -/

/-- Tokens that `decodeURIComponent` reads back from the escape of one code point. -/
def charToks (c : Char) : List Tok :=
  if noEscape c then [Tok.raw c] else (utf8 c).map Tok.byte

/-- One serialized entry `escape(k)=escape(v)`. -/
def escapedPair (k v : JSString) : JSString := qsEscape k ++ '=' :: qsEscape v

/-- One entry `k=v` as it appears in the base string. -/
def plainPair (k v : JSString) : JSString := k ++ '=' :: v

/-- The entries of an object as `querystring.stringify` visits them: each own key, in
enumeration order, with the string of its value. -/
def entries (o : JSObject) : List (JSString × JSString) :=
  (ownKeys o).map fun k => (k, stringifyPrimitive (getV o k))

/-- The entries joined as `k=v` with `&`, nothing escaped. -/
def joinPlain (es : List (JSString × JSString)) : JSString :=
  List.intercalate ['&'] (es.map fun e => plainPair e.1 e.2)

/-- An object has each key once. -/
def NodupKeys (o : JSObject) : Prop := (keysOf o).Nodup

/-- The names of the default fields. -/
def defaultFieldNames : List JSString :=
  ["app_id".toList, "nonce".toList, "signature_method".toList, "timestamp".toList]

/-- The segments of a string between `&` characters. -/
def splitAmp : JSString → List JSString
  | [] => [[]]
  | c :: cs =>
    if c = '&' then [] :: splitAmp cs
    else
      match splitAmp cs with
      | [] => [[c]]
      | seg :: segs => (c :: seg) :: segs

/-- Test whether `s` begins with `p`. -/
def startsWith : JSString → JSString → Bool
  | [], _ => true
  | _ :: _, [] => false
  | a :: p, b :: s => a = b && startsWith p s

/-- The segments of a query string that carry the key `k`: those beginning with `k=`. -/
def segmentsOfKey (k : JSString) (s : JSString) : List JSString :=
  (splitAmp s).filter (fun seg => startsWith (k ++ ['=']) seg)

/-- The default fields as serialized entries. -/
def defaultEntries (env : Env) (appId : JSString) : List (JSString × JSString) :=
  [("app_id".toList, appId), ("nonce".toList, numberToString env.nonce),
   ("signature_method".toList, "RS256".toList),
   ("timestamp".toList, numberToString env.getTime)]

/-! ## Sample worlds -/

/-- A sample world: nonce `150000000000001`, clock `1700000000000`, one readable key
file `/keys/app.pem`, and a signing primitive that answers `c2ln`. -/
def sampleEnv : Env :=
  Env.mk 150000000000001 1700000000000
    (fun path => if path = "/keys/app.pem".toList then .ok "PEM".toList
      else .error (Thrown.error "ENOENT"))
    (fun _ _ => .ok "c2ln".toList) id id

/-- A sample world in which no file can be read. -/
def noFilesEnv : Env :=
  Env.mk 150000000000001 1700000000000 (fun _ => .error (Thrown.error "ENOENT"))
    (fun _ _ => .ok "c2ln".toList) id id

/-- A sample world for `verifyJWS`: one readable certificate `/keys/partner.pem`, and a
verification primitive that accepts the token `good.jws` and reports every other token
as expired. -/
def sampleVerifyEnv : VerifyEnv JSString :=
  VerifyEnv.mk
    (fun path => if path = "/keys/partner.pem".toList then .ok "CERT".toList
      else .error (Thrown.error "ENOENT"))
    (fun jws _ _ => if jws = "good.jws".toList then .ok "claims".toList
      else .error (Thrown.error "jwt expired"))

/-- A sample world for `decryptJWE`: the header parses, the key file loads, the
decryption primitive rejects the tag `badtag` and otherwise hands back the ciphertext
as plaintext, and only the plaintext `true` parses. -/
def sampleDecryptEnv : DecryptEnv JSString Unit :=
  DecryptEnv.mk (fun _ => .ok "hdr".toList) (fun _ => .ok "PEM".toList)
    (fun _ => Async.fulfils ())
    (fun _ data => if data.tag = "badtag".toList
      then Async.rejects (Thrown.error "authentication tag mismatch")
      else Async.fulfils data.ciphertext)
    (fun text => if text = "true".toList then .ok text
      else .error (Thrown.error "Unexpected token"))

/-! ## Percent-encoding round trip -/

theorem char_toNat_valid (c : Char) :
    c.toNat < 0xD800 ∨ (0xDFFF < c.toNat ∧ c.toNat < 0x110000) := c.valid

theorem hexVal_hexDigit (n : Nat) (h : n < 16) : hexVal (hexDigit n) = some n := by
  interval_cases n <;> decide

theorem pctDecode_hexTable (b : Nat) (hb : b < 256) (r : JSString) :
    pctDecode (hexTable b ++ r) = (pctDecode r).map (Tok.byte b :: ·) := by
  have h1 : hexVal (hexDigit (b / 16)) = some (b / 16) := hexVal_hexDigit _ (by omega)
  have h2 : hexVal (hexDigit (b % 16)) = some (b % 16) := hexVal_hexDigit _ (by omega)
  have h3 : 16 * (b / 16) + b % 16 = b := by omega
  simp [hexTable, pctDecode, h1, h2, h3]

theorem pctDecode_raw (c : Char) (hc : c ≠ '%') (r : JSString) :
    pctDecode (c :: r) = (pctDecode r).map (Tok.raw c :: ·) := by
  rcases r with _ | ⟨a, _ | ⟨b, r⟩⟩ <;> simp [pctDecode, hc]

theorem noEscape_ne_percent (c : Char) (h : noEscape c = true) : c ≠ '%' := by
  rintro rfl
  revert h
  decide

theorem utf8_lt (c : Char) : ∀ b ∈ utf8 c, b < 256 := by
  have hv := char_toNat_valid c
  intro b hb
  unfold utf8 at hb
  simp only [] at hb
  split_ifs at hb <;> simp at hb <;> omega

theorem pctDecode_bytes (bs : List Nat) (hbs : ∀ b ∈ bs, b < 256) (r : JSString) :
    pctDecode (bs.flatMap hexTable ++ r) = (pctDecode r).map (bs.map Tok.byte ++ ·) := by
  induction bs with
  | nil => simp
  | cons b bs ih =>
    have hb : b < 256 := hbs b (List.mem_cons_self _ _)
    have ih2 := ih (fun x hx => hbs x (List.mem_cons_of_mem _ hx))
    rw [List.flatMap_cons, List.append_assoc, pctDecode_hexTable b hb, ih2]
    cases pctDecode r <;> simp

theorem pctDecode_escapeChar (c : Char) (r : JSString) :
    pctDecode (escapeChar c ++ r) = (pctDecode r).map (charToks c ++ ·) := by
  unfold escapeChar charToks
  by_cases h : noEscape c = true
  · simp only [h, if_true]
    exact pctDecode_raw c (noEscape_ne_percent c h) r
  · simp only [h, if_false, Bool.false_eq_true]
    exact pctDecode_bytes _ (utf8_lt c) r

theorem pctDecode_qsEscape (s r : JSString) :
    pctDecode (qsEscape s ++ r) = (pctDecode r).map (s.flatMap charToks ++ ·) := by
  induction s with
  | nil => simp [qsEscape]
  | cons c s ih =>
    have : qsEscape (c :: s) ++ r = escapeChar c ++ (qsEscape s ++ r) := by
      simp [qsEscape]
    rw [this, pctDecode_escapeChar, ih]
    cases pctDecode r <;> simp

theorem utf8Go_start_raw (c : Char) (t : List Tok) :
    utf8Go .start (Tok.raw c :: t) = (utf8Go .start t).map (c :: ·) := by
  rw [utf8Go]

theorem utf8Go_utf8 (c : Char) (t : List Tok) :
    utf8Go .start ((utf8 c).map Tok.byte ++ t) = (utf8Go .start t).map (c :: ·) := by
  have hv := char_toNat_valid c
  have hc : Char.ofNat c.toNat = c := Char.ofNat_toNat c
  unfold utf8
  simp only []
  by_cases h1 : c.toNat < 0x80
  · simp only [h1, if_true, List.map_cons, List.map_nil, List.cons_append, List.nil_append]
    rw [utf8Go]
    simp only [h1, hc, if_true]
  · by_cases h2 : c.toNat < 0x800
    · have e : (0xC0 + c.toNat / 0x40 - 0xC0) * 0x40 + (0x80 + c.toNat % 0x40 - 0x80)
          = c.toNat := by omega
      have a1 : ¬ (0xC0 + c.toNat / 0x40 < 0x80) := by omega
      have a2 : ¬ (0xC0 + c.toNat / 0x40 < 0xC0) := by omega
      have a3 : 0xC0 + c.toNat / 0x40 < 0xE0 := by omega
      have a4 : isCont (0x80 + c.toNat % 0x40) = true := by
        simp [isCont]; omega
      have a5 : 0x80 ≤ c.toNat := by omega
      have a6 : c.toNat.isValidChar := hv
      simp only [h1, h2, if_true, if_false, List.map_cons, List.map_nil, List.cons_append,
        List.nil_append]
      rw [utf8Go]
      simp only [a1, a2, a3, if_true, if_false]
      rw [utf8Go]
      simp only [a4, e, a5, a6, and_self, hc, if_true, if_false]
    · by_cases h3 : c.toNat < 0x10000
      · have e : ((0xE0 + c.toNat / 0x1000 - 0xE0) * 0x40
            + (0x80 + c.toNat / 0x40 % 0x40 - 0x80)) * 0x40
            + (0x80 + c.toNat % 0x40 - 0x80) = c.toNat := by omega
        have a1 : ¬ (0xE0 + c.toNat / 0x1000 < 0x80) := by omega
        have a2 : ¬ (0xE0 + c.toNat / 0x1000 < 0xC0) := by omega
        have a3 : ¬ (0xE0 + c.toNat / 0x1000 < 0xE0) := by omega
        have a4 : 0xE0 + c.toNat / 0x1000 < 0xF0 := by omega
        have a5 : isCont (0x80 + c.toNat / 0x40 % 0x40) = true := by
          simp [isCont]; omega
        have a6 : isCont (0x80 + c.toNat % 0x40) = true := by
          simp [isCont]; omega
        have a7 : 0x800 ≤ c.toNat := by omega
        have a8 : c.toNat.isValidChar := hv
        simp only [h1, h2, h3, if_true, if_false, List.map_cons, List.map_nil,
          List.cons_append, List.nil_append]
        rw [utf8Go]
        simp only [a1, a2, a3, a4, if_true, if_false]
        rw [utf8Go]
        simp only [a5, if_true, if_false, OfNat.ofNat_ne_one, Nat.add_one_sub_one]
        rw [utf8Go]
        simp only [a6, e, a7, a8, and_self, hc, if_true, if_false]
      · have e : (((0xF0 + c.toNat / 0x40000 - 0xF0) * 0x40
            + (0x80 + c.toNat / 0x1000 % 0x40 - 0x80)) * 0x40
            + (0x80 + c.toNat / 0x40 % 0x40 - 0x80)) * 0x40
            + (0x80 + c.toNat % 0x40 - 0x80) = c.toNat := by omega
        have a1 : ¬ (0xF0 + c.toNat / 0x40000 < 0x80) := by omega
        have a2 : ¬ (0xF0 + c.toNat / 0x40000 < 0xC0) := by omega
        have a3 : ¬ (0xF0 + c.toNat / 0x40000 < 0xE0) := by omega
        have a4 : ¬ (0xF0 + c.toNat / 0x40000 < 0xF0) := by omega
        have a4b : 0xF0 + c.toNat / 0x40000 < 0xF8 := by omega
        have a5 : isCont (0x80 + c.toNat / 0x1000 % 0x40) = true := by
          simp [isCont]; omega
        have a5b : isCont (0x80 + c.toNat / 0x40 % 0x40) = true := by
          simp [isCont]; omega
        have a6 : isCont (0x80 + c.toNat % 0x40) = true := by
          simp [isCont]; omega
        have a7 : 0x10000 ≤ c.toNat := by omega
        have a8 : c.toNat.isValidChar := hv
        simp only [h1, h2, h3, if_true, if_false, List.map_cons, List.map_nil,
          List.cons_append, List.nil_append]
        rw [utf8Go]
        simp only [a1, a2, a3, a4, a4b, if_true, if_false]
        rw [utf8Go]
        simp only [a5, if_true, if_false, OfNat.ofNat_ne_one, Nat.add_one_sub_one]
        rw [utf8Go]
        simp only [a5b, if_true, if_false, OfNat.ofNat_ne_one, Nat.add_one_sub_one]
        rw [utf8Go]
        simp only [a6, e, a7, a8, and_self, hc, if_true, if_false]

theorem utf8Go_charToks (c : Char) (t : List Tok) :
    utf8Go .start (charToks c ++ t) = (utf8Go .start t).map (c :: ·) := by
  unfold charToks
  by_cases h : noEscape c = true
  · simp only [h, if_true, List.cons_append, List.nil_append]
    exact utf8Go_start_raw c t
  · simp only [h, if_false, Bool.false_eq_true]
    exact utf8Go_utf8 c t

theorem utf8Go_flatMap_charToks (s : JSString) (t : List Tok) :
    utf8Go .start (s.flatMap charToks ++ t) = (utf8Go .start t).map (s ++ ·) := by
  induction s with
  | nil => simp
  | cons c s ih =>
    rw [List.flatMap_cons, List.append_assoc, utf8Go_charToks, ih]
    cases utf8Go .start t <;> simp

/-- Decoding undoes escaping in front of any remainder. -/
theorem decodeURIComponent_qsEscape_append (s r : JSString) :
    decodeURIComponent (qsEscape s ++ r) = (decodeURIComponent r).map (s ++ ·) := by
  unfold decodeURIComponent utf8Decode
  rw [pctDecode_qsEscape]
  cases pctDecode r with
  | none => simp
  | some ts => simp [utf8Go_flatMap_charToks]

theorem decodeURIComponent_cons (c : Char) (hc : c ≠ '%') (r : JSString) :
    decodeURIComponent (c :: r) = (decodeURIComponent r).map (c :: ·) := by
  unfold decodeURIComponent utf8Decode
  rw [pctDecode_raw c hc]
  cases pctDecode r with
  | none => simp
  | some ts => simp [utf8Go_start_raw]

theorem decodeURIComponent_qsEscape (s : JSString) :
    decodeURIComponent (qsEscape s) = some s := by
  have h := decodeURIComponent_qsEscape_append s []
  simpa [decodeURIComponent, utf8Decode, pctDecode, utf8Go] using h

theorem decodeURIComponent_escapedPair_append (k v r : JSString) :
    decodeURIComponent (escapedPair k v ++ r) = (decodeURIComponent r).map (plainPair k v ++ ·) := by
  unfold escapedPair plainPair
  rw [List.append_assoc, decodeURIComponent_qsEscape_append, List.cons_append,
    decodeURIComponent_cons '=' (by decide), decodeURIComponent_qsEscape_append]
  cases decodeURIComponent r <;> simp

theorem decodeURIComponent_intercalate (es : List (JSString × JSString)) :
    decodeURIComponent (List.intercalate ['&'] (es.map fun e => escapedPair e.1 e.2))
      = some (List.intercalate ['&'] (es.map fun e => plainPair e.1 e.2)) := by
  induction es with
  | nil => simp [List.intercalate, decodeURIComponent, utf8Decode, pctDecode, utf8Go]
  | cons e es ih =>
    cases es with
    | nil =>
      have h := decodeURIComponent_escapedPair_append e.1 e.2 []
      simpa [List.intercalate, decodeURIComponent, utf8Decode, pctDecode, utf8Go] using h
    | cons e2 es =>
      have h1 : List.intercalate ['&'] ((e :: e2 :: es).map fun e => escapedPair e.1 e.2)
          = escapedPair e.1 e.2 ++ '&' :: List.intercalate ['&']
              ((e2 :: es).map fun e => escapedPair e.1 e.2) := by
        simp [List.intercalate]
      have h2 : List.intercalate ['&'] ((e :: e2 :: es).map fun e => plainPair e.1 e.2)
          = plainPair e.1 e.2 ++ '&' :: List.intercalate ['&']
              ((e2 :: es).map fun e => plainPair e.1 e.2) := by
        simp [List.intercalate]
      rw [h1, h2, decodeURIComponent_escapedPair_append,
        decodeURIComponent_cons '&' (by decide), ih]
      simp

theorem qsStringify_eq (o : JSObject) :
    qsStringify o = List.intercalate ['&'] ((entries o).map fun e => escapedPair e.1 e.2) := by
  simp [qsStringify, entries, escapedPair, List.map_map, Function.comp_def]

theorem qsUnescape_qsStringify (env : Env) (o : JSObject) :
    qsUnescape env (qsStringify o) = joinPlain (entries o) := by
  unfold qsUnescape
  rw [qsStringify_eq, decodeURIComponent_intercalate]
  rfl

/-! ## Order on strings -/

theorem cuLe_total (a b : List Nat) : cuLe a b = true ∨ cuLe b a = true := by
  induction a generalizing b with
  | nil => simp [cuLe]
  | cons x a ih =>
    cases b with
    | nil => simp [cuLe]
    | cons y b =>
      simp only [cuLe]
      rcases Nat.lt_trichotomy x y with h | h | h
      · simp [h]
      · subst h; simpa using ih b
      · have : ¬ x < y := by omega
        simp [h, this]

theorem cuLe_trans (a b c : List Nat) (h1 : cuLe a b = true) (h2 : cuLe b c = true) :
    cuLe a c = true := by
  induction a generalizing b c with
  | nil => simp [cuLe]
  | cons x a ih =>
    cases b with
    | nil => simp [cuLe] at h1
    | cons y b =>
      cases c with
      | nil => simp [cuLe] at h2
      | cons z c =>
        simp only [cuLe] at h1 h2 ⊢
        split_ifs at h1 h2 ⊢ <;> first | rfl | omega | skip
        · have hxy : x = y := by omega
          have hyz : y = z := by omega
          exact ih b c h1 h2

theorem cuLe_antisymm (a b : List Nat) (h1 : cuLe a b = true) (h2 : cuLe b a = true) :
    a = b := by
  induction a generalizing b with
  | nil => cases b with
    | nil => rfl
    | cons y b => simp [cuLe] at h2
  | cons x a ih =>
    cases b with
    | nil => simp [cuLe] at h1
    | cons y b =>
      simp only [cuLe] at h1 h2
      split_ifs at h1 h2 <;> first | omega | skip
      · have hxy : x = y := by omega
        rw [hxy, ih b h1 h2]

theorem char_eq_of_toNat_eq (c d : Char) (h : c.toNat = d.toNat) : c = d := by
  rw [← Char.ofNat_toNat c, ← Char.ofNat_toNat d, h]

theorem utf16_injective (a b : JSString) (h : utf16 a = utf16 b) : a = b := by
  induction a generalizing b with
  | nil =>
    cases b with
    | nil => rfl
    | cons d ds =>
      simp only [utf16, utf16Char] at h
      split_ifs at h <;> simp at h
  | cons c cs ih =>
    cases b with
    | nil =>
      simp only [utf16, utf16Char] at h
      split_ifs at h <;> simp at h
    | cons d ds =>
      have hc := char_toNat_valid c
      have hd := char_toNat_valid d
      simp only [utf16, utf16Char] at h
      split_ifs at h with h1 h2 h2
      · simp only [List.cons_append, List.nil_append, List.cons.injEq] at h
        rw [char_eq_of_toNat_eq c d h.1, ih ds h.2]
      · simp only [List.cons_append, List.nil_append, List.cons.injEq] at h
        omega
      · simp only [List.cons_append, List.nil_append, List.cons.injEq] at h
        omega
      · simp only [List.cons_append, List.nil_append, List.cons.injEq] at h
        have : c.toNat = d.toNat := by omega
        rw [char_eq_of_toNat_eq c d this, ih ds h.2.2]

theorem jsSort_eq_of_perm {l1 l2 : List JSString} (h : l1.Perm l2) : jsSort l1 = jsSort l2 := by
  haveI : IsTotal JSString strLe := ⟨fun a b => cuLe_total (utf16 a) (utf16 b)⟩
  haveI : IsTrans JSString strLe :=
    ⟨fun a b c => cuLe_trans (utf16 a) (utf16 b) (utf16 c)⟩
  haveI : IsAntisymm JSString strLe :=
    ⟨fun a b h1 h2 => utf16_injective a b (cuLe_antisymm _ _ h1 h2)⟩
  unfold jsSort
  refine List.eq_of_perm_of_sorted ?_ (List.sorted_insertionSort strLe l1)
    (List.sorted_insertionSort strLe l2)
  exact (List.perm_insertionSort strLe l1).trans
    (h.trans (List.perm_insertionSort strLe l2).symm)

/-! ## Objects -/

theorem lookup_put_self (o : JSObject) (k : JSString) (v : JSVal) :
    (put o k v).lookup k = some v := by
  induction o with
  | nil => simp [put, List.lookup]
  | cons p o ih =>
    obtain ⟨k', v'⟩ := p
    by_cases h : k' = k
    · subst h; simp [put, List.lookup]
    · have h' : (k == k') = false := by simpa using fun e => h e.symm
      simp [put, h, List.lookup, h', ih]

theorem lookup_put_ne (o : JSObject) (k k2 : JSString) (v : JSVal) (hne : k2 ≠ k) :
    (put o k v).lookup k2 = o.lookup k2 := by
  induction o with
  | nil =>
    have h' : (k2 == k) = false := by simpa using hne
    simp [put, List.lookup, h']
  | cons p o ih =>
    obtain ⟨k', v'⟩ := p
    by_cases h : k' = k
    · subst h
      have h' : (k2 == k') = false := by simpa using hne
      simp [put, List.lookup, h']
    · simp only [put, h, if_false, List.lookup]
      cases k2 == k' <;> simp [ih]

theorem mem_keysOf_put (o : JSObject) (k k2 : JSString) (v : JSVal) :
    k2 ∈ keysOf (put o k v) ↔ k2 = k ∨ k2 ∈ keysOf o := by
  induction o with
  | nil => simp [put, keysOf]
  | cons p o ih =>
    obtain ⟨k', v'⟩ := p
    by_cases h : k' = k
    · subst h; simp [put, keysOf]
    · simp only [keysOf] at ih
      simp only [put, h, if_false, keysOf, List.map_cons, List.mem_cons, ih]
      tauto

theorem nodupKeys_put (o : JSObject) (k : JSString) (v : JSVal) (h : NodupKeys o) :
    NodupKeys (put o k v) := by
  induction o with
  | nil => simp [put, NodupKeys, keysOf]
  | cons p o ih =>
    obtain ⟨k', v'⟩ := p
    simp only [NodupKeys, keysOf, List.map_cons, List.nodup_cons] at h
    by_cases hk : k' = k
    · subst hk
      simpa [put, NodupKeys, keysOf] using h
    · have ih2 := ih h.2
      simp only [put, hk, if_false, NodupKeys, keysOf, List.map_cons, List.nodup_cons]
      refine ⟨?_, ih2⟩
      intro hm
      have := (mem_keysOf_put o k k' v).1 hm
      rcases this with e | e
      · exact hk e
      · exact h.1 e

theorem mem_keysOf_iff_lookup (o : JSObject) (k : JSString) :
    k ∈ keysOf o ↔ o.lookup k ≠ none := by
  induction o with
  | nil => simp [keysOf]
  | cons p o ih =>
    obtain ⟨k', v'⟩ := p
    simp only [keysOf] at ih
    by_cases h : k = k'
    · subst h; simp [keysOf, List.lookup]
    · have h' : (k == k') = false := by simpa using h
      simp [keysOf, List.lookup, h', h, ih]

theorem ownKeys_perm (o : JSObject) : (ownKeys o).Perm (keysOf o) := by
  unfold ownKeys
  refine List.Perm.trans (List.Perm.append_right _ (List.perm_insertionSort _ _)) ?_
  have := List.filter_append_perm (fun k => (arrayIndex? k).isSome) (keysOf o)
  simpa using this

theorem mem_ownKeys (o : JSObject) (k : JSString) : k ∈ ownKeys o ↔ k ∈ keysOf o :=
  (ownKeys_perm o).mem_iff

theorem nodup_ownKeys (o : JSObject) (h : NodupKeys o) : (ownKeys o).Nodup :=
  (ownKeys_perm o).nodup_iff.2 h

/-- Writing the keys `ks` one after the other with `put`. -/
theorem lookup_foldl_put (f : JSString → JSVal) (ks : List JSString) (o : JSObject)
    (k : JSString) :
    (ks.foldl (fun acc x => put acc x (f x)) o).lookup k
      = if k ∈ ks then some (f k) else o.lookup k := by
  induction ks generalizing o with
  | nil => simp
  | cons x ks ih =>
    rw [List.foldl_cons, ih]
    by_cases hk : k ∈ ks
    · simp [hk]
    · by_cases hx : k = x
      · subst hx; simp [hk, lookup_put_self]
      · simp [hk, hx, lookup_put_ne _ _ _ _ hx]

theorem mem_keysOf_foldl_put (f : JSString → JSVal) (ks : List JSString) (o : JSObject)
    (k : JSString) :
    k ∈ keysOf (ks.foldl (fun acc x => put acc x (f x)) o) ↔ k ∈ ks ∨ k ∈ keysOf o := by
  induction ks generalizing o with
  | nil => simp
  | cons x ks ih =>
    rw [List.foldl_cons, ih, mem_keysOf_put]
    simp only [List.mem_cons]
    tauto

theorem nodupKeys_foldl_put (f : JSString → JSVal) (ks : List JSString) (o : JSObject)
    (h : NodupKeys o) : NodupKeys (ks.foldl (fun acc x => put acc x (f x)) o) := by
  induction ks generalizing o with
  | nil => simpa using h
  | cons x ks ih =>
    rw [List.foldl_cons]
    exact ih _ (nodupKeys_put o x (f x) h)

theorem lookup_merge (o : JSObject) (src : Params) (k : JSString) :
    (merge o src).lookup k
      = if k ∈ keysOf (paramsObject src) then (paramsObject src).lookup k
        else o.lookup k := by
  unfold merge
  rw [lookup_foldl_put]
  simp only [mem_ownKeys]
  by_cases h : k ∈ keysOf (paramsObject src)
  · have := (mem_keysOf_iff_lookup (paramsObject src) k).1 h
    simp only [h, if_true, getV]
    cases hl : (paramsObject src).lookup k with
    | none => exact absurd hl this
    | some v => rfl
  · simp [h]

theorem mem_keysOf_merge (o : JSObject) (src : Params) (k : JSString) :
    k ∈ keysOf (merge o src) ↔ k ∈ keysOf (paramsObject src) ∨ k ∈ keysOf o := by
  unfold merge
  rw [mem_keysOf_foldl_put, mem_ownKeys]

theorem nodupKeys_merge (o : JSObject) (src : Params) (h : NodupKeys o) :
    NodupKeys (merge o src) :=
  nodupKeys_foldl_put _ _ _ h

theorem keysOf_paramsObject (p : Params) : keysOf (paramsObject p) = p.map Prod.fst := by
  simp [keysOf, paramsObject, List.map_map, Function.comp_def]

theorem lookup_paramsObject (p : Params) (k : JSString) :
    (paramsObject p).lookup k = (p.lookup k).map JSVal.str := by
  induction p with
  | nil => rfl
  | cons e p ih =>
    obtain ⟨k', v'⟩ := e
    simp only [paramsObject, List.map_cons, List.lookup] at ih ⊢
    cases k == k'
    · exact ih
    · rfl

theorem lookup_eq_some_iff_mem (o : JSObject) (h : NodupKeys o) (k : JSString) (v : JSVal) :
    o.lookup k = some v ↔ (k, v) ∈ o := by
  induction o with
  | nil => simp
  | cons p o ih =>
    obtain ⟨k', v'⟩ := p
    simp only [NodupKeys, keysOf, List.map_cons, List.nodup_cons] at h
    by_cases hk : k = k'
    · subst hk
      simp only [List.lookup_cons_self, Option.some.injEq, List.mem_cons, Prod.mk.injEq,
        true_and]
      constructor
      · intro e; exact Or.inl e.symm
      · rintro (e | e)
        · exact e.symm
        · exact absurd (List.mem_map_of_mem Prod.fst e) h.1
    · have h' : (k == k') = false := by simpa using hk
      simp only [List.lookup, h', List.mem_cons, Prod.mk.injEq, hk, false_and, false_or]
      exact ih h.2

theorem lookup_eq_of_perm {o1 o2 : JSObject} (hp : o1.Perm o2) (h1 : NodupKeys o1)
    (k : JSString) : o1.lookup k = o2.lookup k := by
  have h2 : NodupKeys o2 := ((hp.map Prod.fst).nodup_iff).1 h1
  cases e : o1.lookup k with
  | some v =>
    have := (lookup_eq_some_iff_mem o1 h1 k v).1 e
    exact ((lookup_eq_some_iff_mem o2 h2 k v).2 (hp.mem_iff.1 this)).symm
  | none =>
    have hn : k ∉ keysOf o1 := fun hm => (mem_keysOf_iff_lookup o1 k).1 hm e
    have hn2 : k ∉ keysOf o2 := fun hm => hn ((hp.map Prod.fst).mem_iff.2 hm)
    cases e2 : o2.lookup k with
    | none => rfl
    | some v => exact absurd ((mem_keysOf_iff_lookup o2 k).2 (by simp [e2])) hn2

theorem assign_eq (o : JSObject) (k : JSString) (v : JSVal) (ho : o.lookup protoKey = none) :
    assign o k v = if k = protoKey then o else put o k v := by
  unfold assign
  by_cases hk : k = protoKey
  · subst hk
    simp [ho]
  · simp [hk]

theorem foldl_assign_spec (f : JSString → JSVal) (ks : List JSString) (o : JSObject)
    (ho : o.lookup protoKey = none) (hn : NodupKeys o) :
    let r := ks.foldl (fun acc x => assign acc x (f x)) o
    r.lookup protoKey = none ∧ NodupKeys r
      ∧ (∀ k, k ≠ protoKey → r.lookup k = if k ∈ ks then some (f k) else o.lookup k)
      ∧ (∀ k, k ∈ keysOf r ↔ (k ∈ ks ∧ k ≠ protoKey) ∨ k ∈ keysOf o) := by
  induction ks generalizing o with
  | nil => simp [ho, hn]
  | cons x ks ih =>
    simp only [List.foldl_cons]
    rw [assign_eq o x (f x) ho]
    by_cases hx : x = protoKey
    · simp only [hx, if_true]
      obtain ⟨a, b, c, d⟩ := ih o ho hn
      refine ⟨a, b, ?_, ?_⟩
      · intro k hk
        rw [c k hk]
        simp [hk]
      · intro k
        rw [d k]
        simp only [List.mem_cons]
        tauto
    · simp only [hx, if_false]
      have ho2 : (put o x (f x)).lookup protoKey = none := by
        rw [lookup_put_ne _ _ _ _ (fun e => hx e.symm)]; exact ho
      obtain ⟨a, b, c, d⟩ := ih (put o x (f x)) ho2 (nodupKeys_put o x (f x) hn)
      refine ⟨a, b, ?_, ?_⟩
      · intro k hk
        rw [c k hk]
        by_cases hks : k ∈ ks
        · simp [hks]
        · by_cases hkx : k = x
          · subst hkx; simp [hks, lookup_put_self]
          · simp [hks, hkx, lookup_put_ne _ _ _ _ hkx]
      · intro k
        rw [d k, mem_keysOf_put]
        simp only [List.mem_cons]
        constructor
        · rintro (h | h | h)
          · exact Or.inl ⟨Or.inr h.1, h.2⟩
          · exact Or.inl ⟨Or.inl h, by rw [h]; exact hx⟩
          · exact Or.inr h
        · rintro (⟨h | h, h2⟩ | h)
          · exact Or.inr (Or.inl h)
          · exact Or.inl ⟨h, h2⟩
          · exact Or.inr (Or.inr h)

theorem sortJSON_spec (json : JSObject) :
    NodupKeys (sortJSON json)
      ∧ (∀ k, k ≠ protoKey → k ∈ keysOf json → getV (sortJSON json) k = getV json k)
      ∧ (∀ k, k ∈ keysOf (sortJSON json) ↔ k ∈ keysOf json ∧ k ≠ protoKey) := by
  have hs : ∀ k, k ∈ jsSort (ownKeys json) ↔ k ∈ keysOf json := fun k => by
    unfold jsSort
    rw [(List.perm_insertionSort strLe _).mem_iff, mem_ownKeys]
  obtain ⟨_, b, c, d⟩ := foldl_assign_spec (getV json) (jsSort (ownKeys json)) []
    (by simp) (by simp [NodupKeys, keysOf])
  refine ⟨b, ?_, ?_⟩
  · intro k hk hm
    have := c k hk
    simp only [(hs k).2 hm, if_true] at this
    unfold sortJSON
    rw [getV, this]
    rfl
  · intro k
    have := d k
    simp only [hs, keysOf, List.map_nil, List.not_mem_nil, or_false] at this
    exact this

theorem sortJSON_congr (m1 m2 : JSObject) (hk : (ownKeys m1).Perm (ownKeys m2))
    (hv : ∀ k, getV m1 k = getV m2 k) : sortJSON m1 = sortJSON m2 := by
  unfold sortJSON
  rw [jsSort_eq_of_perm hk]
  have : (fun (newJSON : JSObject) k => assign newJSON k (getV m1 k))
      = (fun (newJSON : JSObject) k => assign newJSON k (getV m2 k)) := by
    funext a k; rw [hv]
  rw [this]

theorem nodupKeys_defaultApexHeaders (env : Env) (appId : JSString) :
    NodupKeys (defaultApexHeaders env appId) := by
  simp [NodupKeys, keysOf, defaultApexHeaders]

theorem merge_congr (d : JSObject) (p1 p2 : Params) (hd : NodupKeys d) (hp0 : p1.Perm p2)
    (h0 : (p1.map Prod.fst).Nodup) :
    (ownKeys (merge d p1)).Perm (ownKeys (merge d p2))
      ∧ ∀ k, getV (merge d p1) k = getV (merge d p2) k := by
  have hp : (paramsObject p1).Perm (paramsObject p2) := hp0.map _
  have h1 : NodupKeys (paramsObject p1) := by
    unfold NodupKeys; rw [keysOf_paramsObject]; exact h0
  have hmem : ∀ k, k ∈ keysOf (paramsObject p1) ↔ k ∈ keysOf (paramsObject p2) :=
    fun k => (hp.map Prod.fst).mem_iff
  constructor
  · refine (ownKeys_perm _).trans (List.Perm.trans ?_ (ownKeys_perm _).symm)
    refine (List.perm_ext_iff_of_nodup (nodupKeys_merge d p1 hd) (nodupKeys_merge d p2 hd)).2 ?_
    intro k
    rw [mem_keysOf_merge, mem_keysOf_merge, hmem]
  · intro k
    unfold getV
    rw [lookup_merge, lookup_merge, lookup_eq_of_perm hp h1 k]
    simp only [hmem]

/-! ## Decimal numerals -/

theorem digitChar_toNat (m : Nat) (h : m < 10) :
    (Nat.digitChar m).toNat - 48 = m ∧ (Nat.digitChar m).isDigit = true := by
  interval_cases m <;> decide

theorem toDigitsCore_spec (fuel n : Nat) (ds : List Char) (h : n < fuel) :
    (Nat.toDigitsCore 10 fuel n ds).foldl (fun a c => 10 * a + (c.toNat - 48)) 0
        = ds.foldl (fun a c => 10 * a + (c.toNat - 48)) n
      ∧ ((Nat.toDigitsCore 10 fuel n ds).all Char.isDigit = ds.all Char.isDigit) := by
  induction fuel generalizing n ds with
  | zero => omega
  | succ fuel ih =>
    have hd := digitChar_toNat (n % 10) (Nat.mod_lt _ (by decide))
    unfold Nat.toDigitsCore
    simp only []
    by_cases h0 : n / 10 = 0
    · simp only [h0, if_true, List.foldl_cons, List.all_cons, hd.1, hd.2, Bool.true_and]
      have : 10 * 0 + n % 10 = n := by omega
      rw [this]
      exact ⟨rfl, trivial⟩
    · simp only [h0, if_false]
      have hlt : n / 10 < fuel := by omega
      obtain ⟨a, b⟩ := ih (n / 10) (Nat.digitChar (n % 10) :: ds) hlt
      rw [a, b]
      simp only [List.foldl_cons, List.all_cons, hd.1, hd.2, Bool.true_and]
      have : 10 * (n / 10) + n % 10 = n := by omega
      rw [this]
      exact ⟨rfl, trivial⟩

/-- The string of a number is its decimal numeral: digits only, with the number as value. -/
theorem numberToString_spec (n : Nat) :
    digitsVal (numberToString n) = n ∧ (numberToString n).all Char.isDigit = true := by
  obtain ⟨a, b⟩ := toDigitsCore_spec (n + 1) n [] (by omega)
  exact ⟨a, b⟩

theorem not_mem_of_all_isDigit (s : JSString) (c : Char) (hc : c.isDigit = false)
    (h : s.all Char.isDigit = true) : c ∉ s := by
  intro hm
  rw [List.all_eq_true] at h
  have := h c hm
  rw [hc] at this
  exact absurd this (by decide)

/-! ## Segments of a query string -/

theorem splitAmp_ne_nil (s : JSString) : splitAmp s ≠ [] := by
  induction s with
  | nil => simp [splitAmp]
  | cons c cs ih =>
    unfold splitAmp
    split_ifs
    · simp
    · split <;> simp

theorem splitAmp_of_not_mem_append (x r : JSString) (hx : '&' ∉ x) :
    splitAmp (x ++ '&' :: r) = x :: splitAmp r := by
  induction x with
  | nil => simp [splitAmp]
  | cons c x ih =>
    have hc : c ≠ '&' := fun e => hx (by simp [e])
    have hx2 : '&' ∉ x := fun e => hx (List.mem_cons_of_mem _ e)
    rw [List.cons_append, splitAmp, if_neg hc, ih hx2]

theorem splitAmp_of_not_mem (x : JSString) (hx : '&' ∉ x) : splitAmp x = [x] := by
  induction x with
  | nil => rfl
  | cons c x ih =>
    have hc : c ≠ '&' := fun e => hx (by simp [e])
    have hx2 : '&' ∉ x := fun e => hx (List.mem_cons_of_mem _ e)
    rw [splitAmp, if_neg hc, ih hx2]

theorem splitAmp_intercalate (xs : List JSString) (hne : xs ≠ [])
    (h : ∀ x ∈ xs, '&' ∉ x) : splitAmp (List.intercalate ['&'] xs) = xs := by
  induction xs with
  | nil => exact absurd rfl hne
  | cons x xs ih =>
    cases xs with
    | nil =>
      have : List.intercalate ['&'] [x] = x := by simp [List.intercalate]
      rw [this]
      exact splitAmp_of_not_mem x (h x (List.mem_cons_self _ _))
    | cons y ys =>
      have e : List.intercalate ['&'] (x :: y :: ys)
          = x ++ '&' :: List.intercalate ['&'] (y :: ys) := by
        simp [List.intercalate]
      rw [e, splitAmp_of_not_mem_append x _ (h x (List.mem_cons_self _ _)),
        ih (by simp) (fun z hz => h z (List.mem_cons_of_mem _ hz))]

theorem startsWith_append (p s : JSString) : startsWith p (p ++ s) = true := by
  induction p with
  | nil => rfl
  | cons a p ih => simp [startsWith, ih]

theorem startsWith_key_iff (k k2 v : JSString) (hk : '=' ∉ k) (hk2 : '=' ∉ k2) :
    startsWith (k ++ ['=']) (plainPair k2 v) = true ↔ k2 = k := by
  unfold plainPair
  induction k generalizing k2 with
  | nil =>
    cases k2 with
    | nil => simp [startsWith]
    | cons b k2 =>
      have : b ≠ '=' := fun e => hk2 (by simp [e])
      simp [startsWith, this, Ne.symm this]
  | cons a k ih =>
    have ha : a ≠ '=' := fun e => hk (by simp [e])
    have hk' : '=' ∉ k := fun e => hk (List.mem_cons_of_mem _ e)
    cases k2 with
    | nil => simp [startsWith, ha]
    | cons b k2 =>
      have hk2' : '=' ∉ k2 := fun e => hk2 (List.mem_cons_of_mem _ e)
      have := ih k2 hk' hk2'
      simp only [List.cons_append, startsWith, Bool.and_eq_true, decide_eq_true_eq,
        List.cons.injEq]
      constructor
      · rintro ⟨h1, h2⟩; exact ⟨h1.symm, this.1 h2⟩
      · rintro ⟨h1, h2⟩; exact ⟨h1.symm, this.2 h2⟩

/-! ## The serialized entries -/

theorem keysOf_put_of_not_mem (o : JSObject) (k : JSString) (v : JSVal) (h : k ∉ keysOf o) :
    keysOf (put o k v) = keysOf o ++ [k] := by
  induction o with
  | nil => rfl
  | cons p o ih =>
    obtain ⟨k', v'⟩ := p
    have hne : k' ≠ k := fun e => h (by simp [keysOf, e])
    have hk : k ∉ keysOf o := fun e => h (by simp only [keysOf] at e ⊢; simp [e])
    simp only [keysOf] at ih ⊢
    simp [put, hne, ih hk]

theorem keysOf_foldl_assign (f : JSString → JSVal) (ks : List JSString) (o : JSObject)
    (hp : ∀ k ∈ ks, k ≠ protoKey) (hnd : ks.Nodup) (hdis : ∀ k ∈ ks, k ∉ keysOf o)
    (ho : o.lookup protoKey = none) :
    keysOf (ks.foldl (fun acc x => assign acc x (f x)) o) = keysOf o ++ ks := by
  induction ks generalizing o with
  | nil => simp
  | cons x ks ih =>
    have hx : x ≠ protoKey := hp x (List.mem_cons_self _ _)
    have hxo : x ∉ keysOf o := hdis x (List.mem_cons_self _ _)
    rw [List.nodup_cons] at hnd
    rw [List.foldl_cons, assign_eq o x (f x) ho, if_neg hx,
      ih (put o x (f x)) (fun k hk => hp k (List.mem_cons_of_mem _ hk)) hnd.2 ?_ ?_,
      keysOf_put_of_not_mem o x (f x) hxo]
    · simp
    · intro k hk hm
      rcases (mem_keysOf_put o x k (f x)).1 hm with e | e
      · exact hnd.1 (e ▸ hk)
      · exact hdis k (List.mem_cons_of_mem _ hk) e
    · rw [lookup_put_ne _ _ _ _ (fun e => hx e.symm)]; exact ho

theorem ownKeys_eq_keysOf (o : JSObject) (h : ∀ k ∈ keysOf o, arrayIndex? k = none) :
    ownKeys o = keysOf o := by
  unfold ownKeys
  have h1 : (keysOf o).filter (fun k => (arrayIndex? k).isSome) = [] := by
    rw [List.filter_eq_nil_iff]
    intro k hk
    simp [h k hk]
  have h2 : (keysOf o).filter (fun k => !(arrayIndex? k).isSome) = keysOf o := by
    rw [List.filter_eq_self]
    intro k hk
    simp [h k hk]
  rw [h1, h2]
  rfl

theorem mem_jsSort (ks : List JSString) (k : JSString) : k ∈ jsSort ks ↔ k ∈ ks :=
  (List.perm_insertionSort strLe ks).mem_iff

theorem entries_sortJSON (m : JSObject) (hnd : NodupKeys m)
    (h : ∀ k ∈ keysOf m, arrayIndex? k = none ∧ k ≠ protoKey) :
    entries (sortJSON m)
      = (jsSort (keysOf m)).map fun k => (k, stringifyPrimitive (getV m k)) := by
  have hown : ownKeys m = keysOf m := ownKeys_eq_keysOf m (fun k hk => (h k hk).1)
  have hkeys : keysOf (sortJSON m) = jsSort (keysOf m) := by
    unfold sortJSON
    rw [hown, keysOf_foldl_assign (getV m) (jsSort (keysOf m)) []
      (fun k hk => (h k ((mem_jsSort _ k).1 hk)).2)
      ((List.perm_insertionSort strLe _).nodup_iff.2 hnd) (by simp [keysOf]) (by simp)]
    simp [keysOf]
  have hown2 : ownKeys (sortJSON m) = jsSort (keysOf m) := by
    rw [ownKeys_eq_keysOf, hkeys]
    intro k hk
    rw [hkeys, mem_jsSort] at hk
    exact (h k hk).1
  unfold entries
  rw [hown2]
  apply List.map_congr_left
  intro k hk
  rw [mem_jsSort] at hk
  rw [(sortJSON_spec m).2.1 k (h k hk).2 hk]

theorem map_entries_eq (o : JSObject) (hnd : NodupKeys o) :
    o.map (fun e => (e.1, stringifyPrimitive e.2))
      = (keysOf o).map fun k => (k, stringifyPrimitive (getV o k)) := by
  unfold keysOf
  rw [List.map_map]
  apply List.map_congr_left
  intro e he
  have : o.lookup e.1 = some e.2 := (lookup_eq_some_iff_mem o hnd e.1 e.2).2 he
  simp [getV, this]

theorem mem_of_lookup_eq_some (p : Params) (k v : JSString) (h : p.lookup k = some v) :
    (k, v) ∈ p := by
  induction p with
  | nil => simp at h
  | cons e p ih =>
    obtain ⟨k', v'⟩ := e
    by_cases hk : k = k'
    · subst hk
      simp only [List.lookup_cons_self, Option.some.injEq] at h
      simp [h]
    · have h' : (k == k') = false := by simpa using hk
      simp only [List.lookup, h'] at h
      exact List.mem_cons_of_mem _ (ih h)

/-- Every serialized entry is a pair of the parameters that take part in signing or a
default field. -/
theorem entry_cases (env : Env) (params : Params) (method strContentType appId : JSString)
    (e : JSString × JSString)
    (he : e ∈ entries (baseParams env params method strContentType appId)) :
    e ∈ effectiveParams params method strContentType ∨ e ∈ defaultEntries env appId := by
  unfold baseParams entries at he
  rw [List.mem_map] at he
  obtain ⟨k, hk, rfl⟩ := he
  obtain ⟨_, hget, hmem⟩ := sortJSON_spec
    (merge (defaultApexHeaders env appId) (effectiveParams params method strContentType))
  rw [mem_ownKeys, hmem] at hk
  rw [hget k hk.2 hk.1, getV, lookup_merge]
  by_cases hp : k ∈ keysOf (paramsObject (effectiveParams params method strContentType))
  · left
    rw [if_pos hp, lookup_paramsObject]
    have hne := (mem_keysOf_iff_lookup _ k).1 hp
    rw [lookup_paramsObject] at hne
    cases hl : (effectiveParams params method strContentType).lookup k with
    | none => rw [hl] at hne; exact absurd rfl hne
    | some v => exact mem_of_lookup_eq_some _ k v hl
  · right
    rw [if_neg hp]
    have hd : k ∈ keysOf (defaultApexHeaders env appId) := by
      rcases (mem_keysOf_merge _ _ k).1 hk.1 with h | h
      · exact absurd h hp
      · exact h
    simp only [keysOf, defaultApexHeaders, List.map_cons, List.map_nil, List.mem_cons,
      List.mem_singleton, List.not_mem_nil, or_false] at hd
    rcases hd with rfl | rfl | rfl | rfl <;> simp [defaultEntries, defaultApexHeaders,
      stringifyPrimitive, List.lookup]

/-! ## The signature base string -/

theorem baseParamsStr_eq (env : Env) (params : Params) (method strContentType appId : JSString) :
    baseParamsStr env params method strContentType appId
      = joinPlain (entries (baseParams env params method strContentType appId)) :=
  qsUnescape_qsStringify env _

theorem baseParams_nil (env : Env) (method strContentType appId : JSString) :
    baseParams env [] method strContentType appId = defaultApexHeaders env appId := by
  have h : effectiveParams [] method strContentType = [] := by
    unfold effectiveParams; split_ifs <;> rfl
  unfold baseParams
  rw [h]
  rfl

theorem baseParamsStr_nil (env : Env) (method strContentType appId : JSString) :
    baseParamsStr env [] method strContentType appId
      = "app_id=".toList ++ appId ++ "&nonce=".toList ++ numberToString env.nonce
        ++ "&signature_method=RS256&timestamp=".toList ++ numberToString env.getTime := by
  rw [baseParamsStr_eq, baseParams_nil]
  have : entries (defaultApexHeaders env appId)
      = [("app_id".toList, appId), ("nonce".toList, numberToString env.nonce),
         ("signature_method".toList, "RS256".toList),
         ("timestamp".toList, numberToString env.getTime)] := rfl
  rw [this]
  simp [joinPlain, plainPair, List.intercalate]

theorem filter_key_entries (o : JSObject) (h : NodupKeys o) (k : JSString)
    (hk : k ∈ keysOf o) :
    (entries o).filter (fun e => e.1 = k) = [(k, stringifyPrimitive (getV o k))] := by
  unfold entries
  rw [List.filter_map]
  have h1 : ((fun e : JSString × JSString => decide (e.1 = k))
      ∘ fun x => (x, stringifyPrimitive (getV o x))) = fun x => decide (x = k) := by
    funext x; rfl
  rw [h1, List.filter_eq, List.count_eq_one_of_mem (nodup_ownKeys o h) ((mem_ownKeys o k).2 hk)]
  rfl

/-- C1. With method exactly `POST` and a content type other than
`application/x-www-form-urlencoded`, the base string is the same for every two parameter
mappings (url, appId, nonce and timestamp being the same). -/
theorem baseString_ignores_stripped_params (env : Env) (url : JSString) (P1 P2 : Params)
    (strContentType appId : JSString)
    (hct : strContentType ≠ "application/x-www-form-urlencoded".toList) :
    baseString env url P1 "POST".toList strContentType appId
      = baseString env url P2 "POST".toList strContentType appId := by
  have h : ∀ P : Params, effectiveParams P "POST".toList strContentType = [] := fun P => by
    unfold effectiveParams
    rw [if_pos ⟨rfl, hct⟩]
  unfold baseString baseParamsStr baseParams
  rw [h P1, h P2]

theorem baseString_ignores_stripped_params_witness :
    "application/json".toList ≠ "application/x-www-form-urlencoded".toList
      ∧ baseString sampleEnv "https://api.example.com/v1/pay".toList
          [("amount".toList, "10".toList)] "POST".toList "application/json".toList
          "client1".toList
        = baseString sampleEnv "https://api.example.com/v1/pay".toList
          [("amount".toList, "99".toList), ("to".toList, "x".toList)]
          "POST".toList "application/json".toList "client1".toList :=
  ⟨by decide, baseString_ignores_stripped_params sampleEnv _ _ _ _ _ (by decide)⟩

/-- C2. Two parameter mappings holding the same key/value pairs in a different
insertion order give the same base string (all other inputs being the same). -/
theorem baseString_key_sort_determinism (env : Env) (url : JSString) (P1 P2 : Params)
    (method strContentType appId : JSString) (hperm : P1.Perm P2)
    (hnd : (P1.map Prod.fst).Nodup) :
    baseString env url P1 method strContentType appId
      = baseString env url P2 method strContentType appId := by
  have hE : (effectiveParams P1 method strContentType).Perm
      (effectiveParams P2 method strContentType) := by
    unfold effectiveParams; split_ifs
    · exact List.Perm.refl _
    · exact hperm
  have hN : ((effectiveParams P1 method strContentType).map Prod.fst).Nodup := by
    unfold effectiveParams; split_ifs
    · simp
    · exact hnd
  obtain ⟨hk, hv⟩ := merge_congr (defaultApexHeaders env appId) _ _
    (nodupKeys_defaultApexHeaders env appId) hE hN
  unfold baseString baseParamsStr baseParams
  rw [sortJSON_congr _ _ hk hv]

theorem baseString_key_sort_determinism_witness :
    List.Perm [("b".toList, "2".toList), ("a".toList, "1".toList)]
        [("a".toList, "1".toList), ("b".toList, "2".toList)]
      ∧ (([("b".toList, "2".toList), ("a".toList, "1".toList)] : Params).map Prod.fst).Nodup
      ∧ baseString sampleEnv "https://api.example.com/v1/q".toList
          [("b".toList, "2".toList), ("a".toList, "1".toList)]
          "GET".toList [] "client1".toList
        = baseString sampleEnv "https://api.example.com/v1/q".toList
          [("a".toList, "1".toList), ("b".toList, "2".toList)]
          "GET".toList [] "client1".toList :=
  ⟨List.Perm.swap _ _ _, by decide,
    baseString_key_sort_determinism sampleEnv _ _ _ _ _ _ (List.Perm.swap _ _ _)
      (by decide)⟩

set_option maxRecDepth 100000 in
/-- C3. Evaluation at the parameters `9 -> a`, `10 -> b`: the key `9` is serialized
before the key `10`, although `10` precedes `9` in the lexical order of strings. -/
theorem integer_keys_precede_lexical_order :
    baseParamsStr sampleEnv [("9".toList, "a".toList), ("10".toList, "b".toList)]
        "GET".toList [] "client1".toList
      = ("9=a&10=b&app_id=client1&nonce=150000000000001&signature_method=RS256"
          ++ "&timestamp=1700000000000").toList
      ∧ strLe "10".toList "9".toList ∧ ¬ strLe "9".toList "10".toList := by
  decide

theorem entry_clean (env : Env) (params : Params) (method strContentType appId : JSString)
    (hp : ∀ e ∈ params, '&' ∉ e.1 ∧ '&' ∉ e.2 ∧ '=' ∉ e.1) (happ : '&' ∉ appId)
    (e : JSString × JSString)
    (he : e ∈ entries (baseParams env params method strContentType appId)) :
    '&' ∉ e.1 ∧ '&' ∉ e.2 ∧ '=' ∉ e.1 := by
  rcases entry_cases env params method strContentType appId e he with h | h
  · apply hp
    unfold effectiveParams at h
    split_ifs at h
    · simp at h
    · exact h
  · have hn := not_mem_of_all_isDigit _ '&' (by decide) (numberToString_spec env.nonce).2
    have ht := not_mem_of_all_isDigit _ '&' (by decide) (numberToString_spec env.getTime).2
    simp only [defaultEntries, List.mem_cons, List.mem_singleton, List.not_mem_nil,
      or_false] at h
    rcases h with rfl | rfl | rfl | rfl
    · exact ⟨(by decide : '&' ∉ "app_id".toList), happ,
        (by decide : '=' ∉ "app_id".toList)⟩
    · exact ⟨(by decide : '&' ∉ "nonce".toList), hn, (by decide : '=' ∉ "nonce".toList)⟩
    · exact ⟨by decide, by decide, by decide⟩
    · exact ⟨(by decide : '&' ∉ "timestamp".toList), ht,
        (by decide : '=' ∉ "timestamp".toList)⟩

theorem filter_key_entries_of_lookup (env : Env) (params : Params)
    (method strContentType appId k v : JSString) (hk : k ∈ defaultFieldNames)
    (hns : ¬ (method = "POST".toList
      ∧ strContentType ≠ "application/x-www-form-urlencoded".toList))
    (hv : params.lookup k = some v) :
    (entries (baseParams env params method strContentType appId)).filter (fun e => e.1 = k)
      = [(k, v)] := by
  have hE : effectiveParams params method strContentType = params := by
    unfold effectiveParams; rw [if_neg hns]
  have hproto : k ≠ protoKey := by
    intro e; subst e; revert hk; decide
  have hlk : (paramsObject params).lookup k = some (JSVal.str v) := by
    rw [lookup_paramsObject, hv]; rfl
  have hkp : k ∈ keysOf (paramsObject params) := by
    rw [mem_keysOf_iff_lookup, hlk]; simp
  have hm : k ∈ keysOf (merge (defaultApexHeaders env appId) params) := by
    rw [mem_keysOf_merge]; exact Or.inl hkp
  have hgm : getV (merge (defaultApexHeaders env appId) params) k = JSVal.str v := by
    rw [getV, lookup_merge, if_pos hkp, hlk]; rfl
  obtain ⟨hnd, hget, hmem⟩ := sortJSON_spec (merge (defaultApexHeaders env appId) params)
  unfold baseParams
  rw [hE, filter_key_entries _ hnd k ((hmem k).2 ⟨hm, hproto⟩), hget k hproto hm, hgm]
  rfl

set_option maxRecDepth 100000 in
/-- C4, as stated, fails: with the parameters `a -> 1&nonce=150000000000001`,
`nonce -> n0` (not stripped, method `GET`) the base string carries `nonce=` twice, once
with the value the default field had. -/
theorem default_value_reappears_under_overwritten_key :
    "nonce".toList ∈ defaultFieldNames
    ∧ List.lookup "nonce".toList
        ([("a".toList, "1&nonce=150000000000001".toList), ("nonce".toList, "n0".toList)]
          : Params) = some "n0".toList
    ∧ baseString sampleEnv "https://api.example.com/v1/q".toList
        [("a".toList, "1&nonce=150000000000001".toList), ("nonce".toList, "n0".toList)]
        "GET".toList [] "client1".toList
      = ("GET&https://api.example.com/v1/q&a=1&nonce=150000000000001&app_id=client1"
          ++ "&nonce=n0&signature_method=RS256&timestamp=1700000000000").toList
    ∧ segmentsOfKey "nonce".toList
        (baseString sampleEnv "https://api.example.com/v1/q".toList
          [("a".toList, "1&nonce=150000000000001".toList), ("nonce".toList, "n0".toList)]
          "GET".toList [] "client1".toList)
      = ["nonce=150000000000001".toList, "nonce=n0".toList] := by
  decide

/-- C4, amended. When the parameters are not stripped and hold a default field name `k`
with the string value `v`, the merged mapping serialized into the base string holds the
key `k` exactly once, with value `v`, and the base string is `uppercase(method) & url &`
followed by these entries joined as `key=value`. When moreover no parameter key or value
and not the appId contains `&`, and no parameter key contains `=`, the parameter part of
the base string, split at `&`, has exactly one segment beginning with `k=`, and it is
`k=v`: the default value does not appear under that key. -/
theorem params_overwrite_default_fields :
    (∀ (env : Env) (url : JSString) (params : Params)
        (method strContentType appId k v : JSString),
        k ∈ defaultFieldNames →
        ¬ (method = "POST".toList
          ∧ strContentType ≠ "application/x-www-form-urlencoded".toList) →
        params.lookup k = some v →
        (entries (baseParams env params method strContentType appId)).filter
            (fun e => e.1 = k) = [(k, v)]
          ∧ baseParamsStr env params method strContentType appId
            = joinPlain (entries (baseParams env params method strContentType appId))
          ∧ baseString env url params method strContentType appId
            = toUpperCase env method ++ "&".toList ++ url ++ "&".toList
              ++ baseParamsStr env params method strContentType appId)
      ∧ (∀ (env : Env) (params : Params) (method strContentType appId k v : JSString),
        k ∈ defaultFieldNames →
        ¬ (method = "POST".toList
          ∧ strContentType ≠ "application/x-www-form-urlencoded".toList) →
        params.lookup k = some v →
        (∀ e ∈ params, '&' ∉ e.1 ∧ '&' ∉ e.2 ∧ '=' ∉ e.1) → '&' ∉ appId →
        segmentsOfKey k (baseParamsStr env params method strContentType appId)
          = [k ++ '=' :: v]) := by
  constructor
  · intro env url params method strContentType appId k v hk hns hv
    exact ⟨filter_key_entries_of_lookup env params method strContentType appId k v hk hns hv,
      baseParamsStr_eq env params method strContentType appId, rfl⟩
  · intro env params method strContentType appId k v hk hns hv hp happ
    have hf := filter_key_entries_of_lookup env params method strContentType appId k v
      hk hns hv
    have hclean := entry_clean env params method strContentType appId hp happ
    have hkeq : '=' ∉ k := by
      simp only [defaultFieldNames, List.mem_cons, List.mem_singleton, List.not_mem_nil,
        or_false] at hk
      rcases hk with rfl | rfl | rfl | rfl <;> decide
    unfold segmentsOfKey
    rw [baseParamsStr_eq, joinPlain, splitAmp_intercalate]
    · rw [List.filter_map]
      have hc : (entries (baseParams env params method strContentType appId)).filter
            ((fun seg => startsWith (k ++ ['=']) seg) ∘ fun e => plainPair e.1 e.2)
          = (entries (baseParams env params method strContentType appId)).filter
            (fun e => e.1 = k) := by
        apply List.filter_congr
        intro e he
        have := startsWith_key_iff k e.1 e.2 hkeq (hclean e he).2.2
        show startsWith (k ++ ['=']) (plainPair e.1 e.2) = decide (e.1 = k)
        rw [Bool.eq_iff_iff, decide_eq_true_iff]
        exact this
      rw [hc, hf]
      rfl
    · intro h
      have h0 : (entries (baseParams env params method strContentType appId)) = [] := by
        simpa using h
      rw [h0] at hf
      simp at hf
    · intro x hx
      rw [List.mem_map] at hx
      obtain ⟨e, he, rfl⟩ := hx
      obtain ⟨h1, h2, _⟩ := hclean e he
      unfold plainPair
      simp only [List.mem_append, List.mem_cons, not_or]
      exact ⟨h1, by decide, h2⟩

set_option maxRecDepth 100000 in
theorem params_overwrite_default_fields_witness :
    "nonce".toList ∈ defaultFieldNames
      ∧ ¬ ("POST".toList = "POST".toList
          ∧ "application/x-www-form-urlencoded".toList
            ≠ "application/x-www-form-urlencoded".toList)
      ∧ List.lookup "nonce".toList
          ([("z".toList, "1".toList), ("nonce".toList, "n0".toList)] : Params)
          = some "n0".toList
      ∧ (∀ e ∈ ([("z".toList, "1".toList), ("nonce".toList, "n0".toList)] : Params),
          '&' ∉ e.1 ∧ '&' ∉ e.2 ∧ '=' ∉ e.1)
      ∧ '&' ∉ "client1".toList
      ∧ (entries (baseParams sampleEnv
            [("z".toList, "1".toList), ("nonce".toList, "n0".toList)]
            "POST".toList "application/x-www-form-urlencoded".toList
            "client1".toList)).filter (fun e => e.1 = "nonce".toList)
          = [("nonce".toList, "n0".toList)]
      ∧ segmentsOfKey "nonce".toList (baseParamsStr sampleEnv
            [("z".toList, "1".toList), ("nonce".toList, "n0".toList)]
            "POST".toList "application/x-www-form-urlencoded".toList "client1".toList)
          = ["nonce=n0".toList] :=
  ⟨by decide, by decide, by decide, by decide, by decide,
    (params_overwrite_default_fields.1 sampleEnv [] _ _ _ _ _ _ (by decide) (by decide)
      (by decide)).1,
    params_overwrite_default_fields.2 sampleEnv _ _ _ _ _ _ (by decide) (by decide)
      (by decide) (by decide) (by decide)⟩

set_option maxRecDepth 100000 in
/-- C5. The base string is `uppercase(method) & url & baseParamsStr` with the url
unchanged, where an ASCII method is upper-cased letter by letter; with an empty parameter
mapping `baseParamsStr` is
`app_id=<appId>&nonce=<nonce>&signature_method=RS256&timestamp=<timestamp>`, the nonce
and the timestamp written as decimal numerals; `GET` on
`https://api.example.com/v1/accounts` with appId `client1` and no parameters gives
`GET&https://api.example.com/v1/accounts&app_id=client1&nonce=<nonce>&signature_method=RS256&timestamp=<timestamp>`,
and so does the method `get`, here with nonce `150000000000001` and timestamp
`1700000000000` written out. -/
theorem baseString_layout :
    (∀ (env : Env) (url : JSString) (params : Params)
        (method strContentType appId : JSString),
        baseString env url params method strContentType appId
          = toUpperCase env method ++ "&".toList ++ url ++ "&".toList
            ++ baseParamsStr env params method strContentType appId)
      ∧ (∀ (env : Env) (method : JSString), method.all (fun c => c.toNat < 128) = true →
          toUpperCase env method = method.map Char.toUpper)
      ∧ (∀ (env : Env) (method strContentType appId : JSString),
          baseParamsStr env [] method strContentType appId
            = "app_id=".toList ++ appId ++ "&nonce=".toList ++ numberToString env.nonce
              ++ "&signature_method=RS256&timestamp=".toList ++ numberToString env.getTime)
      ∧ (∀ n : Nat, digitsVal (numberToString n) = n
          ∧ (numberToString n).all Char.isDigit = true)
      ∧ (∀ (env : Env) (strContentType : JSString),
          baseString env "https://api.example.com/v1/accounts".toList [] "GET".toList
              strContentType "client1".toList
            = "GET&https://api.example.com/v1/accounts&app_id=client1&nonce=".toList
              ++ numberToString env.nonce
              ++ "&signature_method=RS256&timestamp=".toList ++ numberToString env.getTime)
      ∧ baseString sampleEnv "https://api.example.com/v1/accounts".toList [] "get".toList
            [] "client1".toList
          = ("GET&https://api.example.com/v1/accounts&app_id=client1&nonce=150000000000001"
              ++ "&signature_method=RS256&timestamp=1700000000000").toList := by
  refine ⟨fun _ _ _ _ _ _ => rfl, ?_, baseParamsStr_nil, numberToString_spec, ?_, by decide⟩
  · intro env method h
    unfold toUpperCase
    rw [if_pos h]
  · intro env strContentType
    unfold baseString
    rw [baseParamsStr_nil]
    have : toUpperCase env "GET".toList = "GET".toList := rfl
    rw [this]
    simp

theorem baseString_layout_witness :
    "post".toList.all (fun c => c.toNat < 128) = true
      ∧ toUpperCase sampleEnv "post".toList = "post".toList.map Char.toUpper
      ∧ "post".toList.map Char.toUpper = "POST".toList :=
  ⟨by decide, baseString_layout.2.1 sampleEnv "post".toList (by decide), by decide⟩

set_option maxRecDepth 100000 in
/-- C10, the example as the claim gives it: the mappings `a -> 1&b=2` and
`a -> 1, b -> 2` do not give the same base string, because the default field `app_id`
is sorted between `a` and `b`. -/
theorem claimed_example_gives_distinct_baseStrings :
    baseString sampleEnv "https://api.example.com/v1/q".toList
        [("a".toList, "1&b=2".toList)] "GET".toList [] "client1".toList
      = ("GET&https://api.example.com/v1/q&a=1&b=2&app_id=client1&nonce=150000000000001"
          ++ "&signature_method=RS256&timestamp=1700000000000").toList
    ∧ baseString sampleEnv "https://api.example.com/v1/q".toList
        [("a".toList, "1".toList), ("b".toList, "2".toList)]
        "GET".toList [] "client1".toList
      = ("GET&https://api.example.com/v1/q&a=1&app_id=client1&b=2&nonce=150000000000001"
          ++ "&signature_method=RS256&timestamp=1700000000000").toList
    ∧ baseString sampleEnv "https://api.example.com/v1/q".toList
        [("a".toList, "1&b=2".toList)] "GET".toList [] "client1".toList
      ≠ baseString sampleEnv "https://api.example.com/v1/q".toList
        [("a".toList, "1".toList), ("b".toList, "2".toList)]
        "GET".toList [] "client1".toList := by
  decide

theorem sorted_entries (env : Env) (params : Params)
    (method strContentType appId : JSString)
    (hkeys : ∀ k ∈ params.map Prod.fst, arrayIndex? k = none ∧ k ≠ protoKey) :
    (entries (baseParams env params method strContentType appId)).Perm
        ((merge (defaultApexHeaders env appId)
          (effectiveParams params method strContentType)).map
            fun e => (e.1, stringifyPrimitive e.2))
      ∧ List.Sorted strLe
          ((entries (baseParams env params method strContentType appId)).map Prod.fst) := by
  have hnd := nodupKeys_merge (defaultApexHeaders env appId)
    (effectiveParams params method strContentType) (nodupKeys_defaultApexHeaders env appId)
  have hk : ∀ k ∈ keysOf (merge (defaultApexHeaders env appId)
      (effectiveParams params method strContentType)),
      arrayIndex? k = none ∧ k ≠ protoKey := by
    intro k hk
    rcases (mem_keysOf_merge _ _ k).1 hk with h | h
    · apply hkeys
      rw [keysOf_paramsObject] at h
      unfold effectiveParams at h
      split_ifs at h
      · simp at h
      · exact h
    · simp only [keysOf, defaultApexHeaders, List.map_cons, List.map_nil, List.mem_cons,
        List.mem_singleton, List.not_mem_nil, or_false] at h
      rcases h with rfl | rfl | rfl | rfl <;> decide
  unfold baseParams
  rw [entries_sortJSON _ hnd hk, map_entries_eq _ hnd]
  constructor
  · exact (List.perm_insertionSort strLe _).map _
  · rw [List.map_map]
    have : (Prod.fst ∘ fun k => (k, stringifyPrimitive
        (getV (merge (defaultApexHeaders env appId)
          (effectiveParams params method strContentType)) k))) = id := by
      funext k; rfl
    rw [this, List.map_id]
    haveI : IsTotal JSString strLe := ⟨fun a b => cuLe_total (utf16 a) (utf16 b)⟩
    haveI : IsTrans JSString strLe :=
      ⟨fun a b c => cuLe_trans (utf16 a) (utf16 b) (utf16 c)⟩
    exact List.sorted_insertionSort strLe _

set_option maxRecDepth 100000 in
set_option maxHeartbeats 1000000 in
/-- C10, amended. For every parameter mapping none of whose keys is an array index or
`__proto__`, `baseParamsStr` is the entries of the merged mapping, sorted by key, joined
as `key=value` with `&`, with no percent-encoding left; hence the mappings `x -> 1&y=2`
and `y -> 2, x -> 1`, which differ at the key `y`, give the same base string for the
same method, url, appId, nonce and timestamp, ending in `&x=1&y=2`. -/
theorem canonicalization_not_injective :
    (∀ (env : Env) (params : Params) (method strContentType appId : JSString),
        (∀ k ∈ params.map Prod.fst, arrayIndex? k = none ∧ k ≠ protoKey) →
        ∃ es : List (JSString × JSString),
          es.Perm ((merge (defaultApexHeaders env appId)
              (effectiveParams params method strContentType)).map
                fun e => (e.1, stringifyPrimitive e.2))
            ∧ List.Sorted strLe (es.map Prod.fst)
            ∧ baseParamsStr env params method strContentType appId
              = List.intercalate ['&'] (es.map fun e => e.1 ++ '=' :: e.2))
      ∧ (∀ (env : Env) (url strContentType appId : JSString),
        baseString env url [("x".toList, "1&y=2".toList)] "GET".toList strContentType appId
          = baseString env url [("y".toList, "2".toList), ("x".toList, "1".toList)]
              "GET".toList strContentType appId)
      ∧ List.lookup "y".toList ([("x".toList, "1&y=2".toList)] : Params)
          ≠ List.lookup "y".toList
              ([("y".toList, "2".toList), ("x".toList, "1".toList)] : Params)
      ∧ baseString sampleEnv "https://api.example.com/v1/q".toList
            [("y".toList, "2".toList), ("x".toList, "1".toList)] "GET".toList []
            "client1".toList
          = ("GET&https://api.example.com/v1/q&app_id=client1&nonce=150000000000001"
              ++ "&signature_method=RS256&timestamp=1700000000000&x=1&y=2").toList := by
  refine ⟨?_, ?_, by decide, by decide⟩
  · intro env params method strContentType appId hkeys
    obtain ⟨h1, h2⟩ := sorted_entries env params method strContentType appId hkeys
    exact ⟨_, h1, h2, baseParamsStr_eq env params method strContentType appId⟩
  intro env url strContentType appId
  unfold baseString
  rw [baseParamsStr_eq, baseParamsStr_eq]
  have h : ∀ P : Params, effectiveParams P "GET".toList strContentType = P := fun P => by
    unfold effectiveParams
    rw [if_neg (fun h => absurd h.1 (by decide))]
  unfold baseParams
  rw [h, h]
  have e1 : entries (sortJSON (merge (defaultApexHeaders env appId)
        [("x".toList, "1&y=2".toList)]))
      = [("app_id".toList, appId),
         ("nonce".toList, numberToString env.nonce),
         ("signature_method".toList, "RS256".toList),
         ("timestamp".toList, numberToString env.getTime),
         ("x".toList, "1&y=2".toList)] := by rfl
  have e2 : entries (sortJSON (merge (defaultApexHeaders env appId)
        [("y".toList, "2".toList), ("x".toList, "1".toList)]))
      = [("app_id".toList, appId),
         ("nonce".toList, numberToString env.nonce),
         ("signature_method".toList, "RS256".toList),
         ("timestamp".toList, numberToString env.getTime),
         ("x".toList, "1".toList), ("y".toList, "2".toList)] := by rfl
  rw [e1, e2]
  simp [joinPlain, plainPair, List.intercalate]

set_option maxRecDepth 100000 in
theorem canonicalization_not_injective_witness :
    (∀ k ∈ ([("b".toList, "2".toList), ("a".toList, "1".toList)] : Params).map Prod.fst,
        arrayIndex? k = none ∧ k ≠ protoKey)
      ∧ (∃ es : List (JSString × JSString),
          es.Perm ((merge (defaultApexHeaders sampleEnv "client1".toList)
              (effectiveParams [("b".toList, "2".toList), ("a".toList, "1".toList)]
                "GET".toList [])).map fun e => (e.1, stringifyPrimitive e.2))
            ∧ List.Sorted strLe (es.map Prod.fst)
            ∧ baseParamsStr sampleEnv [("b".toList, "2".toList), ("a".toList, "1".toList)]
                "GET".toList [] "client1".toList
              = List.intercalate ['&'] (es.map fun e => e.1 ++ '=' :: e.2))
      ∧ baseParamsStr sampleEnv [("b".toList, "2".toList), ("a".toList, "1".toList)]
            "GET".toList [] "client1".toList
          = ("a=1&app_id=client1&b=2&nonce=150000000000001&signature_method=RS256"
              ++ "&timestamp=1700000000000").toList :=
  ⟨by decide,
    canonicalization_not_injective.1 sampleEnv _ _ _ _ (by decide),
    by decide⟩

/-! ## Header, dispatch and errors -/

theorem strApexHeader_eq (env : Env) (appId sig : JSString) :
    strApexHeader env appId sig
      = "PKI_SIGN timestamp=\"".toList ++ numberToString env.getTime
          ++ "\",nonce=\"".toList ++ numberToString env.nonce
          ++ "\",app_id=\"".toList ++ appId
          ++ "\",signature_method=\"RS256\",signature=\"".toList ++ sig
          ++ "\"".toList := by
  simp [strApexHeader]

set_option maxRecDepth 100000 in
/-- C6. A signing call succeeds exactly when the key file is read and the primitive signs
this call's base string, and the returned string is then
`PKI_SIGN timestamp="<ts>",nonce="<nonce>",app_id="<appId>",signature_method="RS256",signature="<sig>"`
with this call's timestamp and nonce as decimal numerals, the appId argument, and the
primitive's output; for the clock `1700000000000`, the nonce `150000000000001`, appId
`client1` and signature `c2ln` it is
`PKI_SIGN timestamp="1700000000000",nonce="150000000000001",app_id="client1",signature_method="RS256",signature="c2ln"`. -/
theorem header_wire_format :
    (∀ (env : Env) (url : JSString) (params : Params)
        (method strContentType appId keyCertContent : JSString)
        (keyCertPassphrase : Option JSString) (header : JSString),
        generateSHA256withRSAHeader env url params method strContentType appId
            keyCertContent keyCertPassphrase = .ok header
          ↔ ∃ key sig, env.readFileSync keyCertContent = .ok key
              ∧ env.rsaSha256Sign (baseString env url params method strContentType appId)
                  (signWith key keyCertPassphrase) = .ok sig
              ∧ header = "PKI_SIGN timestamp=\"".toList ++ numberToString env.getTime
                  ++ "\",nonce=\"".toList ++ numberToString env.nonce
                  ++ "\",app_id=\"".toList ++ appId
                  ++ "\",signature_method=\"RS256\",signature=\"".toList ++ sig
                  ++ "\"".toList)
      ∧ (∀ n : Nat, digitsVal (numberToString n) = n
          ∧ (numberToString n).all Char.isDigit = true)
      ∧ generateSHA256withRSAHeader sampleEnv "https://api.example.com/v1/accounts".toList
            [] "GET".toList [] "client1".toList "/keys/app.pem".toList none
          = .ok ("PKI_SIGN timestamp=\"1700000000000\",nonce=\"150000000000001\","
              ++ "app_id=\"client1\",signature_method=\"RS256\",signature=\"c2ln\"").toList := by
  refine ⟨?_, numberToString_spec,
    congrArg Except.ok (by decide : strApexHeader sampleEnv "client1".toList "c2ln".toList
      = ("PKI_SIGN timestamp=\"1700000000000\",nonce=\"150000000000001\","
          ++ "app_id=\"client1\",signature_method=\"RS256\",signature=\"c2ln\"").toList)⟩
  intro env url params method strContentType appId keyCertContent keyCertPassphrase header
  unfold generateSHA256withRSAHeader
  cases hr : env.readFileSync keyCertContent with
  | error e => simp
  | ok key =>
    cases hs : env.rsaSha256Sign (baseString env url params method strContentType appId)
        (signWith key keyCertPassphrase) with
    | error e => simp [hs]
    | ok sig =>
      simp only [Except.ok.injEq, exists_and_left, exists_eq_left', hs, ← strApexHeader_eq]
      constructor <;> intro h <;> exact h.symm

set_option maxRecDepth 100000 in
theorem header_wire_format_witness :
    generateSHA256withRSAHeader sampleEnv "https://api.example.com/v1/pay".toList
        [("amount".toList, "10".toList)] "post".toList
        "application/x-www-form-urlencoded".toList "client1".toList "/keys/app.pem".toList
        (some "secret".toList)
      = .ok ("PKI_SIGN timestamp=\"1700000000000\",nonce=\"150000000000001\","
          ++ "app_id=\"client1\",signature_method=\"RS256\",signature=\"c2ln\"").toList :=
  (header_wire_format.1 sampleEnv _ _ _ _ _ _ _ _).2
    ⟨"PEM".toList, "c2ln".toList, rfl, rfl, by decide⟩

/-- C7. For every authType other than `L2` the result is the empty string, whatever the
other arguments and whatever the world (no file is read, no primitive is called); for
authType `L2` the result is that of `generateSHA256withRSAHeader` on
`(url, params, method, contentType, appId, keyCertContent, passphrase)`. -/
theorem generateAuthorizationHeader_dispatch (env : Env) (url : JSString) (params : Params)
    (method strContentType appId keyCertContent : JSString) (passphrase : Option JSString) :
    (∀ authType : JSString, authType ≠ "L2".toList →
        generateAuthorizationHeader env url params method strContentType authType appId
          keyCertContent passphrase = .ok [])
      ∧ generateAuthorizationHeader env url params method strContentType "L2".toList appId
          keyCertContent passphrase
        = generateSHA256withRSAHeader env url params method strContentType appId
            keyCertContent passphrase := by
  constructor
  · intro authType h
    unfold generateAuthorizationHeader
    rw [if_neg h]
  · unfold generateAuthorizationHeader
    rw [if_pos rfl]

theorem generateAuthorizationHeader_dispatch_witness :
    "L1".toList ≠ "L2".toList
      ∧ generateAuthorizationHeader noFilesEnv "https://api.example.com/v1/accounts".toList []
          "GET".toList [] "L1".toList "client1".toList "/missing.pem".toList none = .ok []
      ∧ generateAuthorizationHeader noFilesEnv "https://api.example.com/v1/accounts".toList []
          "GET".toList [] "L2".toList "client1".toList "/missing.pem".toList none
        = .error (Thrown.error "ENOENT") :=
  ⟨by decide,
    (generateAuthorizationHeader_dispatch noFilesEnv _ _ _ _ _ _ _).1 _ (by decide),
    rfl⟩

/-- C8. If reading the key or the verification primitive fails, for any cause,
`verifyJWS` fails with the single string `Error with verifying and decoding JWS`, so
every failure surfaces the same error; and when the primitive succeeds, `verifyJWS`
returns its decoded claim set unchanged. -/
theorem verifyJWS_error_flattening {Claims : Type} (env : VerifyEnv Claims)
    (jws publicCert : JSString) :
    (∀ cause, env.readFileSync publicCert = .error cause →
        verifyJWS env jws publicCert
          = .error (Thrown.text "Error with verifying and decoding JWS"))
      ∧ (∀ pem cause, env.readFileSync publicCert = .ok pem →
          env.jwtVerify jws pem ⟨["RS256"], true⟩ = .error cause →
          verifyJWS env jws publicCert
            = .error (Thrown.text "Error with verifying and decoding JWS"))
      ∧ (∀ pem decoded, env.readFileSync publicCert = .ok pem →
          env.jwtVerify jws pem ⟨["RS256"], true⟩ = .ok decoded →
          verifyJWS env jws publicCert = .ok decoded)
      ∧ (∀ e, verifyJWS env jws publicCert = .error e →
          e = Thrown.text "Error with verifying and decoding JWS") := by
  refine ⟨?_, ?_, ?_, ?_⟩
  · intro cause h
    simp [verifyJWS, h]
  · intro pem cause h1 h2
    simp [verifyJWS, h1, h2]
  · intro pem decoded h1 h2
    simp [verifyJWS, h1, h2]
  · intro e h
    unfold verifyJWS at h
    cases h1 : env.readFileSync publicCert with
    | error c => rw [h1] at h; simp at h; exact h.symm
    | ok pem =>
      rw [h1] at h
      simp only at h
      cases h2 : env.jwtVerify jws pem ⟨["RS256"], true⟩ with
      | error c => rw [h2] at h; simp at h; exact h.symm
      | ok d => rw [h2] at h; simp at h

theorem verifyJWS_error_flattening_witness :
    verifyJWS sampleVerifyEnv "good.jws".toList "/missing.pem".toList
        = .error (Thrown.text "Error with verifying and decoding JWS")
      ∧ verifyJWS sampleVerifyEnv "old.jws".toList "/keys/partner.pem".toList
        = .error (Thrown.text "Error with verifying and decoding JWS")
      ∧ verifyJWS sampleVerifyEnv "good.jws".toList "/keys/partner.pem".toList
        = .ok "claims".toList :=
  ⟨(verifyJWS_error_flattening sampleVerifyEnv _ _).1 (Thrown.error "ENOENT") rfl,
    (verifyJWS_error_flattening sampleVerifyEnv _ _).2.1 "CERT".toList
      (Thrown.error "jwt expired") rfl rfl,
    (verifyJWS_error_flattening sampleVerifyEnv _ _).2.2.1 "CERT".toList "claims".toList
      rfl rfl⟩

/-- C9, as stated, fails: a rejection of the decryption primitive and a failure to parse
the plaintext have different causes, yet `decryptJWE` delivers the same error for both,
and it is not the cause. -/
theorem decryptJWE_hides_the_cause :
    decryptJWE.executor sampleDecryptEnv "e30".toList "k".toList "iv".toList "true".toList
        "badtag".toList "/keys/app.pem".toList
      = Promise.rejected (Thrown.error "authentication tag mismatch")
    ∧ decryptJWE.executor sampleDecryptEnv "e30".toList "k".toList "iv".toList
        "not json".toList "tag".toList "/keys/app.pem".toList
      = Promise.rejected (Thrown.error "Unexpected token")
    ∧ decryptJWE sampleDecryptEnv "e30".toList "k".toList "iv".toList "true".toList
        "badtag".toList "/keys/app.pem".toList
      = decryptJWE sampleDecryptEnv "e30".toList "k".toList "iv".toList "not json".toList
        "tag".toList "/keys/app.pem".toList
    ∧ decryptJWE sampleDecryptEnv "e30".toList "k".toList "iv".toList "true".toList
        "badtag".toList "/keys/app.pem".toList
      ≠ Promise.rejected (Thrown.error "authentication tag mismatch") := by
  refine ⟨rfl, rfl, rfl, ?_⟩
  decide

/-- C9, amended. Every error that `decryptJWE` delivers is the single string
`Error with decrypting JWE`: a rejected promise of the executor, whatever its cause, is
delivered as that string, in particular a rejection of the decryption primitive and a
failure to parse the decrypted plaintext. -/
theorem decryptJWE_error_flattening {Json Key : Type} (env : DecryptEnv Json Key)
    (header encryptedKey iv cipherText tag privateKey : JSString) :
    (∀ e, decryptJWE env header encryptedKey iv cipherText tag privateKey = .rejected e →
        e = Thrown.text "Error with decrypting JWE")
      ∧ (∀ cause,
          decryptJWE.executor env header encryptedKey iv cipherText tag privateKey
            = .rejected cause →
          decryptJWE env header encryptedKey iv cipherText tag privateKey
            = .rejected (Thrown.text "Error with decrypting JWE"))
      ∧ (∀ parsed pem jweKey cause, env.parseHeader header = .ok parsed →
          env.readFileSync privateKey = .ok pem → env.keystoreAdd pem = .fulfils jweKey →
          env.decrypt jweKey
              ⟨"compact".toList, cipherText, header, encryptedKey, tag, iv, parsed⟩
            = .rejects cause →
          decryptJWE env header encryptedKey iv cipherText tag privateKey
            = .rejected (Thrown.text "Error with decrypting JWE"))
      ∧ (∀ parsed pem jweKey text cause, env.parseHeader header = .ok parsed →
          env.readFileSync privateKey = .ok pem → env.keystoreAdd pem = .fulfils jweKey →
          env.decrypt jweKey
              ⟨"compact".toList, cipherText, header, encryptedKey, tag, iv, parsed⟩
            = .fulfils text →
          env.jsonParse text = .error cause →
          decryptJWE env header encryptedKey iv cipherText tag privateKey
            = .rejected (Thrown.text "Error with decrypting JWE")) := by
  refine ⟨?_, ?_, ?_, ?_⟩
  · intro e h
    unfold decryptJWE at h
    cases hx : decryptJWE.executor env header encryptedKey iv cipherText tag privateKey with
    | resolved a => rw [hx] at h; simp at h
    | rejected c => rw [hx] at h; simp at h; exact h.symm
    | pending => rw [hx] at h; simp at h
  · intro cause h
    unfold decryptJWE
    rw [h]
  · intro parsed pem jweKey cause h1 h2 h3 h4
    simp only [decryptJWE, decryptJWE.executor, h1, h2, h3, h4]
  · intro parsed pem jweKey text cause h1 h2 h3 h4 h5
    simp only [decryptJWE, decryptJWE.executor, h1, h2, h3, h4, h5]

theorem decryptJWE_error_flattening_witness :
    decryptJWE sampleDecryptEnv "e30".toList "k".toList "iv".toList "true".toList
        "badtag".toList "/keys/app.pem".toList
      = Promise.rejected (Thrown.text "Error with decrypting JWE")
    ∧ decryptJWE sampleDecryptEnv "e30".toList "k".toList "iv".toList "not json".toList
        "tag".toList "/keys/app.pem".toList
      = Promise.rejected (Thrown.text "Error with decrypting JWE") :=
  ⟨(decryptJWE_error_flattening sampleDecryptEnv _ _ _ _ _ _).2.2.1 "hdr".toList
      "PEM".toList () (Thrown.error "authentication tag mismatch") rfl rfl rfl rfl,
    (decryptJWE_error_flattening sampleDecryptEnv _ _ _ _ _ _).2.2.2 "hdr".toList
      "PEM".toList () "not json".toList (Thrown.error "Unexpected token") rfl rfl rfl rfl
      rfl⟩

end Security
